import Mathlib

/-!
# Verification of the webinar-analytics record-linkage and master-table engine

Shallow embedding of the core tabular operations of the repository
(`scripts/master_tables.py`, `scripts/neoserra_helper.py`,
`scripts/match_webinar_to_neoserra.py`, `scripts/overwriting.py`,
`scripts/run_summary.py`, `scripts/zip_codes.py`) and proofs about them.

A pandas `DataFrame` is modelled as a list of column labels together with a
list of rows; a row is an association list from column label to an optional
string value (`none` models a missing value / `NaN`).  Pure column
transformations become Lean functions on these lists.  File I/O is out of
scope: the CSV round trip between two runs is modelled as the identity on the
in-memory table, except for the `Registration Time` re-parse which
`update_attendance_master` performs explicitly and which is embedded as
`normRegTime` (the composition of `pd.to_datetime(..., errors="coerce")` with
the `%Y-%m-%d %H:%M:%S` serialisation used by `to_csv`).
-/

set_option linter.unusedSectionVars false

namespace SBDC

/-- A cell value: `none` is pandas `NaN`/missing. -/
abbrev Val := Option String

/-- A row: association list from column label to value. -/
abbrev Row := List (String × Val)

/-- Read a column of a row.  A label that is absent behaves like a missing
value, matching how the Python code reads columns it may have never set. -/
def getVal (r : Row) (c : String) : Val := (r.lookup c).join

/-- Column assignment `df.loc[...] = v` restricted to one row: replace the
value if the label is present, otherwise append the new column at the end
(pandas appends new columns on assignment). -/
def setVal (r : Row) (c : String) (v : Val) : Row :=
  if r.any (fun p => p.1 == c) then
    r.map (fun p => if p.1 == c then (c, v) else p)
  else r ++ [(c, v)]

/-- `df[cols]` / `reindex(columns=cols)` restricted to one row: keep exactly
the requested labels in the requested order, missing labels becoming `NaN`. -/
def projectRow (cs : List String) (r : Row) : Row := cs.map (fun c => (c, getVal r c))

/-- A dataframe: column labels plus rows. -/
structure DF where
  cols : List String
  rows : List Row
deriving DecidableEq, Repr

/-! ## Keyed deduplication (`drop_duplicates(subset=[k])`)

`drop_duplicates(..., keep="first")` keeps, in original order, the first row
of every key class; `keep="last"` keeps the last one (still in original
order).  The key may be any type with lawful boolean equality (string keys
for the attendance master, optional-string keys where pandas compares `NaN`
equal to `NaN`, as in `drop_duplicates`). -/

variable {α : Type} {κ : Type} [BEq κ] [LawfulBEq κ]

/-- `drop_duplicates(keep="first")` on key `key`. -/
def dedupFirstBy (key : α → κ) : List α → List α
  | [] => []
  | a :: as => a :: dedupFirstBy key (as.filter (fun b => !(key b == key a)))
  termination_by l => l.length
  decreasing_by
    simp only [List.length_cons]
    exact Nat.lt_succ_of_le (List.length_filter_le _ _)

/-- `drop_duplicates(keep="last")` on key `key`. -/
def dedupLastBy (key : α → κ) (l : List α) : List α :=
  (dedupFirstBy key l.reverse).reverse

/-- The first row of `l` whose key is `k` (head of `l.filter`). -/
def firstWithKey (key : α → κ) (l : List α) (k : κ) : Option α :=
  (l.filter (fun b => key b == k)).head?

/-- The last row of `l` whose key is `k`. -/
def lastWithKey (key : α → κ) (l : List α) (k : κ) : Option α :=
  firstWithKey key l.reverse k

@[simp] theorem dedupFirstBy_nil (key : α → κ) : dedupFirstBy key ([] : List α) = [] := by
  simp [dedupFirstBy]

theorem dedupFirstBy_cons (key : α → κ) (a : α) (as : List α) :
    dedupFirstBy key (a :: as) =
      a :: dedupFirstBy key (as.filter (fun b => !(key b == key a))) := by
  rw [dedupFirstBy]

/-- Deduplicated lists are sublists of the input. -/
theorem dedupFirstBy_sublist (key : α → κ) (l : List α) :
    (dedupFirstBy key l).Sublist l := by
  induction l using dedupFirstBy.induct key with
  | case1 => simp
  | case2 a as ih =>
    rw [dedupFirstBy_cons]
    exact (ih.trans (List.filter_sublist as)).cons₂ a

theorem mem_of_mem_dedupFirstBy {key : α → κ} {l : List α} {a : α}
    (h : a ∈ dedupFirstBy key l) : a ∈ l :=
  (dedupFirstBy_sublist key l).mem h

/-- Membership in `drop_duplicates(keep="first")`: exactly the first row of
each key class survives. -/
theorem mem_dedupFirstBy_iff {key : α → κ} {l : List α} {a : α} :
    a ∈ dedupFirstBy key l ↔ firstWithKey key l (key a) = some a := by
  induction l using dedupFirstBy.induct key with
  | case1 => simp [firstWithKey]
  | case2 x xs ih =>
    rw [dedupFirstBy_cons]
    unfold firstWithKey
    simp only [List.mem_cons]
    by_cases hx : key a = key x
    · simp only [List.filter_cons, hx, beq_self_eq_true, if_pos]
      constructor
      · rintro (rfl | hmem)
        · simp
        · exfalso
          have hmem' := mem_of_mem_dedupFirstBy hmem
          have := List.of_mem_filter hmem'
          simp [hx] at this
      · intro h
        simp only [List.head?_cons, Option.some.injEq] at h
        exact Or.inl h.symm
    · have hbx : (key x == key a) = false := by
        simp only [beq_eq_false_iff_ne, ne_eq]
        exact fun h => hx h.symm
      have hfc : List.filter (fun b => key b == key a) (x :: xs) =
          List.filter (fun b => key b == key a) xs := by
        simp [List.filter_cons, hbx]
      rw [hfc]
      have hff : List.filter (fun b => key b == key a)
            (List.filter (fun b => !(key b == key x)) xs) =
          List.filter (fun b => key b == key a) xs := by
        rw [List.filter_filter]
        apply List.filter_congr
        intro b _
        by_cases hb : key b = key a
        · have : (key b == key x) = false := by
            simp only [beq_eq_false_iff_ne, ne_eq]
            intro h; exact hx (hb ▸ h)
          simp [hb, this, hx]
        · simp [beq_eq_false_iff_ne, hb]
      constructor
      · rintro (rfl | hmem)
        · exact absurd rfl hx
        · have := ih.mp hmem
          unfold firstWithKey at this
          rwa [hff] at this
      · intro h
        refine Or.inr (ih.mpr ?_)
        unfold firstWithKey
        rwa [hff]

theorem mem_of_firstWithKey_eq_some {key : α → κ} {l : List α} {k : κ} {a : α}
    (h : firstWithKey key l k = some a) : a ∈ l ∧ key a = k := by
  unfold firstWithKey at h
  have hmem := List.mem_of_mem_head? h
  exact ⟨List.mem_of_mem_filter hmem, by simpa using List.of_mem_filter hmem⟩

/-- The keys of a `keep="first"` deduplication are pairwise distinct. -/
theorem nodup_keys_dedupFirstBy (key : α → κ) (l : List α) :
    ((dedupFirstBy key l).map key).Nodup := by
  induction l using dedupFirstBy.induct key with
  | case1 => simp
  | case2 a as ih =>
    rw [dedupFirstBy_cons]
    simp only [List.map_cons, List.nodup_cons]
    refine ⟨?_, ih⟩
    intro hmem
    obtain ⟨b, hb, hkey⟩ := List.mem_map.mp hmem
    have := List.of_mem_filter (mem_of_mem_dedupFirstBy hb)
    simp [hkey] at this

/-- Deduplication is the identity on a list whose keys are already unique. -/
theorem dedupFirstBy_eq_self {key : α → κ} {l : List α}
    (h : (l.map key).Nodup) : dedupFirstBy key l = l := by
  induction l using dedupFirstBy.induct key with
  | case1 => simp
  | case2 a as ih =>
    rw [dedupFirstBy_cons]
    simp only [List.map_cons, List.nodup_cons] at h
    have hfa : as.filter (fun b => !(key b == key a)) = as := by
      apply List.filter_eq_self.mpr
      intro b hb
      simp only [Bool.not_eq_eq_eq_not, Bool.not_true, beq_eq_false_iff_ne, ne_eq]
      intro hk
      exact h.1 (List.mem_map.mpr ⟨b, hb, hk⟩)
    have ih' := ih
    rw [hfa] at ih'
    rw [hfa, ih' h.2]

theorem nodup_keys_dedupLastBy (key : α → κ) (l : List α) :
    ((dedupLastBy key l).map key).Nodup := by
  unfold dedupLastBy
  rw [List.map_reverse]
  exact List.nodup_reverse.mpr (nodup_keys_dedupFirstBy key l.reverse)

theorem mem_dedupLastBy_iff {key : α → κ} {l : List α} {a : α} :
    a ∈ dedupLastBy key l ↔ lastWithKey key l (key a) = some a := by
  unfold dedupLastBy lastWithKey
  rw [List.mem_reverse]
  exact mem_dedupFirstBy_iff

theorem mem_of_lastWithKey_eq_some {key : α → κ} {l : List α} {k : κ} {a : α}
    (h : lastWithKey key l k = some a) : a ∈ l ∧ key a = k := by
  unfold lastWithKey at h
  have := mem_of_firstWithKey_eq_some h
  exact ⟨List.mem_reverse.mp this.1, this.2⟩

/-- `lastWithKey` over an append looks in the second list first. -/
theorem lastWithKey_append (key : α → κ) (l₁ l₂ : List α) (k : κ) :
    lastWithKey key (l₁ ++ l₂) k = (lastWithKey key l₂ k).or (lastWithKey key l₁ k) := by
  unfold lastWithKey firstWithKey
  rw [List.reverse_append, List.filter_append, List.head?_append]

/-- On a list with unique keys, filtering on a member's key keeps exactly
that member. -/
theorem filter_keyEq_of_nodup {key : α → κ} {l : List α} {a : α}
    (h : (l.map key).Nodup) (ha : a ∈ l) :
    l.filter (fun b => key b == key a) = [a] := by
  induction l with
  | nil => simp at ha
  | cons x xs ih =>
    simp only [List.map_cons, List.nodup_cons] at h
    rcases List.mem_cons.mp ha with rfl | haxs
    · simp only [List.filter_cons, beq_self_eq_true, if_pos]
      have hrest : xs.filter (fun b => key b == key a) = [] := by
        apply List.filter_eq_nil_iff.mpr
        intro b hb
        simp only [beq_iff_eq]
        intro hk
        exact h.1 (List.mem_map.mpr ⟨b, hb, hk⟩)
      rw [hrest]
    · have hxa : (key x == key a) = false := by
        simp only [beq_eq_false_iff_ne, ne_eq]
        intro hk
        exact h.1 (List.mem_map.mpr ⟨a, haxs, hk.symm⟩)
      simp only [List.filter_cons, hxa, Bool.false_eq_true, if_neg, not_false_iff]
      exact ih h.2 haxs

/-- On a list with unique keys, `lastWithKey` recovers each member. -/
theorem lastWithKey_of_nodup {key : α → κ} {l : List α} {a : α}
    (h : (l.map key).Nodup) (ha : a ∈ l) : lastWithKey key l (key a) = some a := by
  unfold lastWithKey firstWithKey
  have h' : (l.reverse.map key).Nodup := by
    rw [List.map_reverse]
    exact List.nodup_reverse.mpr h
  rw [filter_keyEq_of_nodup h' (List.mem_reverse.mpr ha)]
  rfl

/-- A key that occurs nowhere in the list yields no `lastWithKey` hit. -/
theorem lastWithKey_eq_none {key : α → κ} {l : List α} {k : κ}
    (h : ∀ a ∈ l, key a ≠ k) : lastWithKey key l k = none := by
  unfold lastWithKey firstWithKey
  have : l.reverse.filter (fun b => key b == k) = [] := by
    apply List.filter_eq_nil_iff.mpr
    intro b hb
    simp [h b (List.mem_reverse.mp hb)]
  rw [this]
  rfl

/-! ## Decimal digits, zero padding, and their round trip

`pd.to_datetime` / `strftime` are library calls; they are embedded below as an
explicit character-level parser and zero-padded formatter for the date and
date-time shapes the pipeline documents (`YYYY-MM-DD`, `YYYY_MM_DD`,
`YYYY-MM-DD HH:MM:SS`).  Any other shape parses to `NaT` (`none`). -/

/-- Decimal digits of `n`, least significant first. -/
def digitsRev (n : Nat) : List Nat :=
  if h : n < 10 then [n] else (n % 10) :: digitsRev (n / 10)
  termination_by n
  decreasing_by
    exact Nat.div_lt_self (Nat.pos_of_ne_zero (by omega)) (by omega)

/-- Decimal digits of `n`, most significant first. -/
def digitsOf (n : Nat) : List Nat := (digitsRev n).reverse

/-- Left-pad a digit list with zeros to width `k`. -/
def padZeros (k : Nat) (ds : List Nat) : List Nat :=
  List.replicate (k - ds.length) 0 ++ ds

/-- Value of a big-endian digit list. -/
def digitVal (ds : List Nat) : Nat := ds.foldl (fun a d => 10 * a + d) 0

/-- Digits rendered as characters. -/
def digitChars (ds : List Nat) : List Char := ds.map (fun d => Char.ofNat (48 + d))

/-- Parse a non-empty all-digit character list as a number. -/
def parseDigits? (l : List Char) : Option Nat :=
  if l ≠ [] ∧ l.all (fun c => c.isDigit) then
    some (digitVal (l.map (fun c => c.toNat - 48)))
  else none

theorem digitsOf_cons (n : Nat) (h : ¬ n < 10) :
    digitsOf n = digitsOf (n / 10) ++ [n % 10] := by
  unfold digitsOf
  rw [digitsRev, dif_neg h, List.reverse_cons]

theorem digitsOf_small (n : Nat) (h : n < 10) : digitsOf n = [n] := by
  unfold digitsOf
  rw [digitsRev, dif_pos h]
  rfl

theorem digitVal_append_singleton (ds : List Nat) (d : Nat) :
    digitVal (ds ++ [d]) = 10 * digitVal ds + d := by
  unfold digitVal
  rw [List.foldl_append]
  rfl

/-- Formatting then evaluating digits is the identity. -/
theorem digitVal_digitsOf (n : Nat) : digitVal (digitsOf n) = n := by
  induction n using digitsRev.induct with
  | case1 n h =>
    rw [digitsOf_small n h]
    simp [digitVal]
  | case2 n h ih =>
    rw [digitsOf_cons n h, digitVal_append_singleton, ih]
    omega

theorem digitVal_padZeros (k : Nat) (ds : List Nat) :
    digitVal (padZeros k ds) = digitVal ds := by
  unfold padZeros digitVal
  rw [List.foldl_append]
  congr 1
  generalize k - ds.length = j
  induction j with
  | zero => rfl
  | succ j ihj => simpa [List.replicate_succ] using ihj

theorem digitsRev_lt_10 (n : Nat) : ∀ d ∈ digitsRev n, d < 10 := by
  induction n using digitsRev.induct with
  | case1 n h =>
    rw [digitsRev, dif_pos h]
    simpa using h
  | case2 n h ih =>
    rw [digitsRev, dif_neg h]
    intro d hd
    rcases List.mem_cons.mp hd with rfl | hd'
    · omega
    · exact ih d hd'

theorem digitsOf_lt_10 (n : Nat) : ∀ d ∈ digitsOf n, d < 10 := by
  intro d hd
  exact digitsRev_lt_10 n d (List.mem_reverse.mp hd)

theorem padZeros_lt_10 (k : Nat) (ds : List Nat) (h : ∀ d ∈ ds, d < 10) :
    ∀ d ∈ padZeros k ds, d < 10 := by
  intro d hd
  rcases List.mem_append.mp hd with hrep | hds
  · have := List.eq_of_mem_replicate hrep
    omega
  · exact h d hds

theorem digitChar_isDigit {d : Nat} (h : d < 10) : (Char.ofNat (48 + d)).isDigit = true := by
  interval_cases d <;> decide

theorem digitChar_toNat {d : Nat} (h : d < 10) : (Char.ofNat (48 + d)).toNat - 48 = d := by
  interval_cases d <;> decide

theorem digitChar_ne {d : Nat} (c : Char) (hc : c.isDigit = false) (h : d < 10) :
    Char.ofNat (48 + d) ≠ c := by
  intro he
  rw [← he] at hc
  rw [digitChar_isDigit h] at hc
  exact absurd hc (by simp)

/-- Parsing the rendered digits of a padded number recovers the number. -/
theorem parseDigits?_digitChars {ds : List Nat} (h10 : ∀ d ∈ ds, d < 10) (hne : ds ≠ []) :
    parseDigits? (digitChars ds) = some (digitVal ds) := by
  unfold parseDigits? digitChars
  rw [if_pos]
  · congr 1
    rw [List.map_map]
    have : List.map ((fun c => c.toNat - 48) ∘ fun d => Char.ofNat (48 + d)) ds = ds := by
      have hmc : List.map ((fun (c : Char) => c.toNat - 48) ∘ fun d => Char.ofNat (48 + d)) ds
          = List.map id ds :=
        List.map_congr_left (fun d hd => digitChar_toNat (h10 d hd))
      simpa using hmc
    rw [this]
  · constructor
    · simpa using hne
    · rw [List.all_eq_true]
      intro c hc
      obtain ⟨d, hd, rfl⟩ := List.mem_map.mp hc
      exact digitChar_isDigit (h10 d hd)

/-- Fixed-width decimal rendering used by `strftime` field formats. -/
def padChars (k n : Nat) : List Char := digitChars (padZeros k (digitsOf n))

theorem digitsOf_ne_nil (n : Nat) : digitsOf n ≠ [] := by
  unfold digitsOf
  simp only [ne_eq, List.reverse_eq_nil_iff]
  rw [digitsRev]
  split <;> simp

theorem parseDigits?_padChars (k n : Nat) : parseDigits? (padChars k n) = some n := by
  unfold padChars
  rw [parseDigits?_digitChars (padZeros_lt_10 _ _ (digitsOf_lt_10 n)), digitVal_padZeros,
    digitVal_digitsOf]
  unfold padZeros
  simp [digitsOf_ne_nil n]

theorem padChars_all_digit (k n : Nat) : ∀ c ∈ padChars k n, c.isDigit = true := by
  intro c hc
  obtain ⟨d, hd, rfl⟩ := List.mem_map.mp hc
  exact digitChar_isDigit (padZeros_lt_10 _ _ (digitsOf_lt_10 n) d hd)

/-! ## Splitting on a separator character -/

/-- Split a character list on a separator (like `str.split(sep)`). -/
def splitOnChar (sep : Char) : List Char → List (List Char)
  | [] => [[]]
  | c :: cs =>
    if c = sep then [] :: splitOnChar sep cs
    else
      match splitOnChar sep cs with
      | [] => [[c]]
      | g :: gs => (c :: g) :: gs

theorem splitOnChar_nil (sep : Char) : splitOnChar sep [] = [[]] := rfl

theorem splitOnChar_cons (sep c : Char) (cs : List Char) :
    splitOnChar sep (c :: cs) =
      if c = sep then [] :: splitOnChar sep cs
      else
        match splitOnChar sep cs with
        | [] => [[c]]
        | g :: gs => (c :: g) :: gs := rfl

theorem splitOnChar_ne_nil (sep : Char) (l : List Char) : splitOnChar sep l ≠ [] := by
  induction l with
  | nil => simp [splitOnChar]
  | cons c cs ih =>
    unfold splitOnChar
    split
    · simp
    · cases hs : splitOnChar sep cs <;> simp

/-- A separator-free list splits into exactly itself. -/
theorem splitOnChar_sepFree {sep : Char} {l : List Char}
    (h : ∀ c ∈ l, c ≠ sep) : splitOnChar sep l = [l] := by
  induction l with
  | nil => simp [splitOnChar]
  | cons c cs ih =>
    unfold splitOnChar
    rw [if_neg (h c (List.mem_cons_self _ _))]
    rw [ih (fun x hx => h x (List.mem_cons_of_mem _ hx))]

/-- Splitting a list of the form `a ++ sep :: b` with separator-free `a`. -/
theorem splitOnChar_append_sep {sep : Char} {a b : List Char}
    (h : ∀ c ∈ a, c ≠ sep) :
    splitOnChar sep (a ++ sep :: b) = a :: splitOnChar sep b := by
  induction a with
  | nil =>
    rw [List.nil_append, splitOnChar_cons, if_pos rfl]
  | cons c cs ih =>
    have hc : c ≠ sep := h c (List.mem_cons_self _ _)
    have ih' := ih (fun x hx => h x (List.mem_cons_of_mem _ hx))
    rw [List.cons_append, splitOnChar_cons, if_neg hc, ih']

/-! ## Dates and timestamps (`pd.to_datetime(..., errors="coerce")`)

Parsing is restricted to the numeric dashed shapes the pipeline documents;
year bounds follow the pandas `Timestamp` range (whole years 1678–2261; the
partial boundary years 1677/2262 are conservatively treated as unparseable). -/

def isLeap (y : Nat) : Bool := (y % 4 == 0 && y % 100 != 0) || y % 400 == 0

def daysInMonth (y m : Nat) : Nat :=
  if m == 2 then (if isLeap y then 29 else 28)
  else if m == 4 || m == 6 || m == 9 || m == 11 then 30
  else 31

def validDate (y m d : Nat) : Bool :=
  1678 ≤ y && y ≤ 2261 && 1 ≤ m && m ≤ 12 && 1 ≤ d && d ≤ daysInMonth y m

def validTime (h mi s : Nat) : Bool := h ≤ 23 && mi ≤ 59 && s ≤ 59

/-- Parse `YYYY-MM-DD` (numeric fields of any width, calendar-checked). -/
def parseDate? (l : List Char) : Option (Nat × Nat × Nat) :=
  match splitOnChar '-' l with
  | [ys, ms, ds] =>
    match parseDigits? ys, parseDigits? ms, parseDigits? ds with
    | some y, some m, some d => if validDate y m d then some (y, m, d) else none
    | _, _, _ => none
  | _ => none

/-- Parse `HH:MM:SS`. -/
def parseTime? (l : List Char) : Option (Nat × Nat × Nat) :=
  match splitOnChar ':' l with
  | [hs, ms, ss] =>
    match parseDigits? hs, parseDigits? ms, parseDigits? ss with
    | some h, some mi, some s => if validTime h mi s then some (h, mi, s) else none
    | _, _, _ => none
  | _ => none

/-- `strftime("%Y-%m-%d")`. -/
def dateChars (y m d : Nat) : List Char :=
  padChars 4 y ++ '-' :: (padChars 2 m ++ '-' :: padChars 2 d)

/-- `strftime("%H:%M:%S")`. -/
def timeChars (h mi s : Nat) : List Char :=
  padChars 2 h ++ ':' :: (padChars 2 mi ++ ':' :: padChars 2 s)

/-- Parse a date with an optional time component (`format="mixed"` restricted
to the dashed numeric shapes). -/
def parseDateTime? (l : List Char) : Option ((Nat × Nat × Nat) × (Nat × Nat × Nat)) :=
  match splitOnChar ' ' l with
  | [d] => (parseDate? d).map (fun dd => (dd, (0, 0, 0)))
  | [d, t] =>
    match parseDate? d, parseTime? t with
    | some dd, some tt => some (dd, tt)
    | _, _ => none
  | _ => none

/-- `strftime("%Y-%m-%d %H:%M:%S")`, the `to_csv` date format. -/
def dateTimeChars (dd tt : Nat × Nat × Nat) : List Char :=
  dateChars dd.1 dd.2.1 dd.2.2 ++ ' ' :: timeChars tt.1 tt.2.1 tt.2.2

theorem padChars_ne (k n : Nat) (c : Char) (hc : c.isDigit = false) :
    ∀ x ∈ padChars k n, x ≠ c := by
  intro x hx he
  have := padChars_all_digit k n x hx
  rw [he, hc] at this
  exact absurd this (by simp)

theorem parseDate?_dateChars {y m d : Nat} (h : validDate y m d = true) :
    parseDate? (dateChars y m d) = some (y, m, d) := by
  unfold parseDate? dateChars
  rw [splitOnChar_append_sep (padChars_ne 4 y '-' (by decide)),
    splitOnChar_append_sep (padChars_ne 2 m '-' (by decide)),
    splitOnChar_sepFree (padChars_ne 2 d '-' (by decide))]
  simp only [parseDigits?_padChars]
  rw [if_pos h]

theorem parseTime?_timeChars {h mi s : Nat} (hv : validTime h mi s = true) :
    parseTime? (timeChars h mi s) = some (h, mi, s) := by
  unfold parseTime? timeChars
  rw [splitOnChar_append_sep (padChars_ne 2 h ':' (by decide)),
    splitOnChar_append_sep (padChars_ne 2 mi ':' (by decide)),
    splitOnChar_sepFree (padChars_ne 2 s ':' (by decide))]
  simp only [parseDigits?_padChars]
  rw [if_pos hv]

theorem dateChars_no_space (y m d : Nat) : ∀ c ∈ dateChars y m d, c ≠ ' ' := by
  intro c hc
  unfold dateChars at hc
  rcases List.mem_append.mp hc with h4 | hrest
  · exact padChars_ne 4 y ' ' (by decide) c h4
  · rcases List.mem_cons.mp hrest with rfl | hrest2
    · decide
    · rcases List.mem_append.mp hrest2 with h2 | h2'
      · exact padChars_ne 2 m ' ' (by decide) c h2
      · rcases List.mem_cons.mp h2' with rfl | h2''
        · decide
        · exact padChars_ne 2 d ' ' (by decide) c h2''

theorem parseDateTime?_dateTimeChars {dd tt : Nat × Nat × Nat}
    (hd : validDate dd.1 dd.2.1 dd.2.2 = true) (ht : validTime tt.1 tt.2.1 tt.2.2 = true) :
    parseDateTime? (dateTimeChars dd tt) = some (dd, tt) := by
  unfold parseDateTime? dateTimeChars
  rw [splitOnChar_append_sep (dateChars_no_space dd.1 dd.2.1 dd.2.2)]
  have hts : splitOnChar ' ' (timeChars tt.1 tt.2.1 tt.2.2) = [timeChars tt.1 tt.2.1 tt.2.2] := by
    apply splitOnChar_sepFree
    intro c hc
    unfold timeChars at hc
    rcases List.mem_append.mp hc with h2 | hrest
    · exact padChars_ne 2 tt.1 ' ' (by decide) c h2
    · rcases List.mem_cons.mp hrest with rfl | hrest2
      · decide
      · rcases List.mem_append.mp hrest2 with h2 | h2'
        · exact padChars_ne 2 tt.2.1 ' ' (by decide) c h2
        · rcases List.mem_cons.mp h2' with rfl | h2''
          · decide
          · exact padChars_ne 2 tt.2.2 ' ' (by decide) c h2''
  rw [hts]
  simp only [parseDate?_dateChars hd, parseTime?_timeChars ht]

theorem parseDate?_valid {l : List Char} {y m d : Nat}
    (h : parseDate? l = some (y, m, d)) : validDate y m d = true := by
  unfold parseDate? at h
  split at h
  · split at h
    · split at h
      · obtain ⟨rfl, rfl, rfl⟩ : _ ∧ _ ∧ _ := by simpa [Prod.ext_iff] using h
        assumption
      · exact absurd h (by simp)
    · exact absurd h (by simp)
  · exact absurd h (by simp)

theorem parseTime?_valid {l : List Char} {h mi s : Nat}
    (hp : parseTime? l = some (h, mi, s)) : validTime h mi s = true := by
  unfold parseTime? at hp
  split at hp
  · split at hp
    · split at hp
      · obtain ⟨rfl, rfl, rfl⟩ : _ ∧ _ ∧ _ := by simpa [Prod.ext_iff] using hp
        assumption
      · exact absurd hp (by simp)
    · exact absurd hp (by simp)
  · exact absurd hp (by simp)

theorem parseDateTime?_valid {l : List Char} {dd tt : Nat × Nat × Nat}
    (h : parseDateTime? l = some (dd, tt)) :
    validDate dd.1 dd.2.1 dd.2.2 = true ∧ validTime tt.1 tt.2.1 tt.2.2 = true := by
  unfold parseDateTime? at h
  split at h
  · rcases hd : parseDate? _ with _ | dv <;> rw [hd] at h
    · exact absurd h (by simp)
    · simp only [Option.map_some'] at h
      obtain ⟨h1, h2⟩ : dv = dd ∧ (0, 0, 0) = tt := by simpa [Prod.ext_iff] using h
      subst h1; subst h2
      exact ⟨parseDate?_valid hd, by decide⟩
  · split at h
    · rename_i dv tv hd htm
      obtain ⟨rfl, rfl⟩ : dv = dd ∧ tv = tt := by
        have := Option.some.inj h
        exact ⟨congrArg Prod.fst this, congrArg Prod.snd this⟩
      exact ⟨parseDate?_valid hd, parseTime?_valid htm⟩
    · exact absurd h (by simp)
  · exact absurd h (by simp)

/-! ## Attendance rows and `update_attendance_master` (scripts/master_tables.py)

An attendance row carries the four columns the upsert touches by name
(`email_clean`, `Webinar ID`, `Webinar Date`, `Registration Time`; the
`_pick_col` variants in `run_summary.py` resolve to these on pipeline
output) plus all remaining columns as an opaque association list. -/

/-! Character-level string helpers (Python `str.lower/upper/strip/startswith`
restricted to ASCII, which covers every label and token the pipeline
compares). -/

def asciiLower (c : Char) : Char :=
  if 'A' ≤ c ∧ c ≤ 'Z' then Char.ofNat (c.toNat + 32) else c

def asciiUpper (c : Char) : Char :=
  if 'a' ≤ c ∧ c ≤ 'z' then Char.ofNat (c.toNat - 32) else c

def lowerStr (s : String) : String := String.mk (s.data.map asciiLower)

def upperStr (s : String) : String := String.mk (s.data.map asciiUpper)

def isPySpace (c : Char) : Bool :=
  c == ' ' || c == '\t' || c == '\n' || c == '\r' || c == '\x0b' || c == '\x0c'

/-- `str.strip()`. -/
def stripStr (s : String) : String :=
  String.mk (((s.data.dropWhile isPySpace).reverse.dropWhile isPySpace).reverse)

/-- `str.startswith(pre)`. -/
def startsWithStr (pre s : String) : Bool := pre.data.isPrefixOf s.data

/-- `_norm_str`: `astype("string").fillna("").str.strip()`. -/
def pyNormStr (v : Val) : String := stripStr (v.getD "")

/-- `str.replace("_", "-", regex=False)` (character-level). -/
def underscoreToDash (s : String) : String :=
  String.mk (s.data.map (fun c => if c = '_' then '-' else c))

/-- `_norm_date`: normalise, parse, re-format as `%Y-%m-%d`, `NaT → ""`. -/
def pyNormDate (v : Val) : String :=
  match parseDate? (underscoreToDash (pyNormStr v)).data with
  | some (y, m, d) => String.mk (dateChars y m d)
  | none => ""

structure ARow where
  email : Val
  webinarId : Val
  webinarDate : Val
  regTime : Val
  extra : List (String × Val)
deriving DecidableEq, Repr

/-- `_attendance_key` from `scripts/run_summary.py`. -/
def attendanceKey (r : ARow) : String :=
  pyNormStr r.email ++ "||" ++ pyNormStr r.webinarId ++ "||" ++ pyNormDate r.webinarDate

/-- The `Registration Time` re-parse of `update_attendance_master`:
`pd.to_datetime(..., format="mixed", errors="coerce")` followed by the
`%Y-%m-%d %H:%M:%S` serialisation `to_csv` applies. -/
def normRegTime (v : Val) : Val :=
  v.bind (fun s => (parseDateTime? s.data).map (fun p => String.mk (dateTimeChars p.1 p.2)))

def applyRegTime (r : ARow) : ARow := { r with regTime := normRegTime r.regTime }

theorem normRegTime_idem (v : Val) : normRegTime (normRegTime v) = normRegTime v := by
  cases v with
  | none => rfl
  | some s =>
    have h1 : normRegTime (some s)
        = (parseDateTime? s.data).map (fun p => String.mk (dateTimeChars p.1 p.2)) := rfl
    rw [h1]
    cases hp : parseDateTime? s.data with
    | none => rfl
    | some p =>
      obtain ⟨dd, tt⟩ := p
      simp only [Option.map_some']
      have hv := parseDateTime?_valid hp
      have h2 : normRegTime (some (String.mk (dateTimeChars dd tt)))
          = (parseDateTime? (dateTimeChars dd tt)).map
              (fun q => String.mk (dateTimeChars q.1 q.2)) := rfl
      rw [h2, parseDateTime?_dateTimeChars hv.1 hv.2]
      rfl

theorem applyRegTime_idem (r : ARow) : applyRegTime (applyRegTime r) = applyRegTime r := by
  unfold applyRegTime
  simp [normRegTime_idem]

theorem attendanceKey_applyRegTime (r : ARow) :
    attendanceKey (applyRegTime r) = attendanceKey r := rfl

/-! ## The generic keyed upsert and its idempotence -/

section Upsert

variable {β : Type} [DecidableEq β]

/-- The in-memory body of `update_attendance_master`: concatenate master and
session, drop duplicate composite keys keeping the later (session) copy, sort
by the key, then apply the per-row `Registration Time` normalisation `T`. -/
def upsertBy (key : β → String) (T : β → β) (master session : List β) : List β :=
  ((dedupLastBy key (master ++ session)).mergeSort
      (fun a b => decide (key a ≤ key b))).map T

theorem mem_upsertBy_iff {key : β → String} {T : β → β} {M S : List β} {x : β} :
    x ∈ upsertBy key T M S ↔
      ∃ a, lastWithKey key (M ++ S) (key a) = some a ∧ x = T a := by
  unfold upsertBy
  rw [List.mem_map]
  constructor
  · rintro ⟨a, ha, rfl⟩
    have ha' : a ∈ dedupLastBy key (M ++ S) :=
      (List.mergeSort_perm _ _).mem_iff.mp ha
    exact ⟨a, mem_dedupLastBy_iff.mp ha', rfl⟩
  · rintro ⟨a, ha, rfl⟩
    refine ⟨a, ?_, rfl⟩
    exact (List.mergeSort_perm _ _).mem_iff.mpr (mem_dedupLastBy_iff.mpr ha)

theorem keys_upsertBy_nodup {key : β → String} {T : β → β}
    (hkey : ∀ b, key (T b) = key b) (M S : List β) :
    ((upsertBy key T M S).map key).Nodup := by
  unfold upsertBy
  rw [List.map_map]
  have hcomp : (key ∘ T) = key := funext hkey
  rw [hcomp]
  have hperm : ((dedupLastBy key (M ++ S)).mergeSort
      (fun a b => decide (key a ≤ key b))).map key |>.Perm
      ((dedupLastBy key (M ++ S)).map key) :=
    (List.mergeSort_perm _ _).map key
  exact hperm.nodup_iff.mpr (nodup_keys_dedupLastBy key (M ++ S))

theorem upsertBy_sorted_le {key : β → String} {T : β → β}
    (hkey : ∀ b, key (T b) = key b) (M S : List β) :
    (upsertBy key T M S).Pairwise (fun a b => key a ≤ key b) := by
  unfold upsertBy
  rw [List.pairwise_map]
  have hs : ((dedupLastBy key (M ++ S)).mergeSort
      (fun a b : β => decide (key a ≤ key b))).Pairwise
      (fun a b => decide (key a ≤ key b) = true) :=
    List.sorted_mergeSort
      (fun a b c h1 h2 => by
        simp only [decide_eq_true_eq] at *
        exact le_trans h1 h2)
      (fun a b => by
        simp only [Bool.or_eq_true, decide_eq_true_eq]
        exact le_total (key a) (key b))
      (dedupLastBy key (M ++ S))
  refine hs.imp ?_
  intro a b h
  simp only [decide_eq_true_eq] at h
  simpa [hkey] using h

/-- Strict sortedness: sorted by key with pairwise-distinct keys. -/
theorem pairwise_lt_of_le_nodup {key : β → String} {l : List β}
    (hle : l.Pairwise (fun a b => key a ≤ key b)) (hnd : (l.map key).Nodup) :
    l.Pairwise (fun a b => key a < key b) := by
  have hne : l.Pairwise (fun a b => key a ≠ key b) := List.pairwise_map.mp hnd
  exact (hle.and hne).imp (fun h => lt_of_le_of_ne h.1 h.2)

/-- Idempotence of the keyed upsert for any key-preserving idempotent
per-row normalisation. -/
theorem upsertBy_idem {key : β → String} {T : β → β}
    (hkey : ∀ b, key (T b) = key b) (hT : ∀ b, T (T b) = T b) (M S : List β) :
    upsertBy key T (upsertBy key T M S) S = upsertBy key T M S := by
  set M1 := upsertBy key T M S with hM1
  -- membership in the second pass equals membership in the first
  have hmem : ∀ x, x ∈ upsertBy key T M1 S ↔ x ∈ M1 := by
    intro x
    constructor
    · intro hx
      obtain ⟨b, hb, rfl⟩ := mem_upsertBy_iff.mp hx
      rw [lastWithKey_append] at hb
      cases hS : lastWithKey key S (key b) with
      | some s =>
        rw [hS] at hb
        have hsb : s = b := by simpa using hb
        subst hsb
        apply mem_upsertBy_iff.mpr
        refine ⟨s, ?_, rfl⟩
        rw [lastWithKey_append, hS]
        rfl
      | none =>
        rw [hS] at hb
        simp only [Option.or] at hb
        have hbM1 : b ∈ M1 := (mem_of_lastWithKey_eq_some hb).1
        obtain ⟨a, _, rfl⟩ := mem_upsertBy_iff.mp hbM1
        rw [hT a]
        exact hbM1
    · intro hx
      obtain ⟨a, ha, rfl⟩ := mem_upsertBy_iff.mp hx
      apply mem_upsertBy_iff.mpr
      rw [lastWithKey_append] at ha
      cases hS : lastWithKey key S (key a) with
      | some s =>
        rw [hS] at ha
        have hsa : s = a := by simpa using ha
        subst hsa
        refine ⟨s, ?_, rfl⟩
        rw [lastWithKey_append, hS]
        rfl
      | none =>
        refine ⟨T a, ?_, (hT a).symm⟩
        have hTA : T a ∈ M1 := hx
        have hlast : lastWithKey key M1 (key (T a)) = some (T a) :=
          lastWithKey_of_nodup (keys_upsertBy_nodup hkey M S) hTA
        rw [hkey] at hlast
        rw [lastWithKey_append, hkey, hS, hlast]
        rfl
  -- both sides are strictly sorted with distinct keys, hence equal
  have hnd1 : M1.Nodup := (keys_upsertBy_nodup hkey M S).of_map key
  have hnd2 : (upsertBy key T M1 S).Nodup := (keys_upsertBy_nodup hkey M1 S).of_map key
  have hperm : (upsertBy key T M1 S).Perm M1 :=
    (List.perm_ext_iff_of_nodup hnd2 hnd1).mpr hmem
  have hs1 : M1.Pairwise (fun a b => key a < key b) :=
    pairwise_lt_of_le_nodup (upsertBy_sorted_le hkey M S) (keys_upsertBy_nodup hkey M S)
  have hs2 : (upsertBy key T M1 S).Pairwise (fun a b => key a < key b) :=
    pairwise_lt_of_le_nodup (upsertBy_sorted_le hkey M1 S) (keys_upsertBy_nodup hkey M1 S)
  haveI : IsAntisymm β (fun a b => key a < key b) :=
    ⟨fun a b h1 h2 => absurd (lt_trans h1 h2) (lt_irrefl _)⟩
  exact List.eq_of_perm_of_sorted hperm hs2 hs1

end Upsert

/-- `update_attendance_master` (in-memory body, master read/write elided):
concat master and session, dedupe on `_attendance_key` keeping the session
copy, sort by the key, re-parse `Registration Time`. -/
def update_attendance_master (master session : List ARow) : List ARow :=
  upsertBy attendanceKey applyRegTime master session

/-! ## People rows and `update_people_master` (scripts/master_tables.py)

The people master is keyed by `email_clean`; every other column is in
`vals`.  A session table is a `PDF`: its non-key column labels plus its
rows.  `update_people_master` outer-merges master and session on the key and
decides column by column whether the session value replaces the master
value. -/

structure PRow where
  email : String
  vals : List (String × Val)
deriving DecidableEq, Repr

structure PDF where
  cols : List String
  rows : List PRow
deriving DecidableEq, Repr

def getPV (r : PRow) (c : String) : Val := (r.vals.lookup c).join

/-- A table is well formed when every row only carries labels from its
column list (always true of a pandas frame). -/
def PDF.WF (df : PDF) : Prop := ∀ r ∈ df.rows, ∀ p ∈ r.vals, p.1 ∈ df.cols

/-- `_match_strength`: lowercase, missing becomes `"none"`, then the map
`{none: 0, name: 1, email: 2}` with `.fillna(0)` — so any other label,
including `name_zip`, ranks 0. -/
def matchStrength (v : Val) : Nat :=
  match v with
  | none => 0
  | some s =>
    let t := lowerStr s
    if t = "email" then 2 else if t = "name" then 1 else 0

/-- `_to_bool` (strip, lowercase, map `true/false`) composed with
`astype("boolean")` and the `.fillna(False)` applied before use. -/
def toBoolF (v : Val) : Bool :=
  match v with
  | none => false
  | some s => lowerStr (stripStr s) == "true"

/-- The "NeoSerra-ish" columns of `update_people_master`. -/
def nsColsPred (c : String) : Bool :=
  startsWithStr "NS " c || c == "Client?" || c == "NS Match Type"

/-- Value of a merged side (`merged.get(f"{c}_m")` / `..._n`): missing row
(no merge partner) reads as `NaN`. -/
def mergedVal (o : Option PRow) (c : String) : Val := o.bind (fun r => getPV r c)

/-- `master.merge(session, on=key, how="outer", sort=False)` with the key as
association: master rows in order, each with its session partner, then the
session-only rows in order. -/
def outerMergeByEmail (master session : List PRow) :
    List (String × Option PRow × Option PRow) :=
  master.map (fun m => (m.email, some m, session.find? (fun s => s.email == m.email)))
    ++ (session.filter (fun s => !(master.any (fun m => m.email == s.email)))).map
        (fun s => (s.email, none, some s))

/-- `n_strength > m_strength` for an aligned row. -/
def strongerFlag (mo no : Option PRow) : Bool :=
  decide (matchStrength (mergedVal mo "NS Match Type")
    < matchStrength (mergedVal no "NS Match Type"))

/-- `(~m_client_bool.fillna(False)) & (n_client_bool.fillna(False))`. -/
def clientFlipFlag (mo no : Option PRow) : Bool :=
  !toBoolF (mergedVal mo "Client?") && toBoolF (mergedVal no "Client?")

/-- The per-column update rule: overwrite an NS column when the master value
is missing, the session match is stronger, or the client flag flips to true;
fill a general column only when the master value is missing — and in either
case only with a non-missing session value. -/
def peopleMergeVal (stronger flip : Bool) (mo no : Option PRow) (c : String) : Val :=
  let mval := mergedVal mo c
  let nval := mergedVal no c
  let takeNew := if nsColsPred c then mval.isNone || stronger || flip else mval.isNone
  if takeNew && nval.isSome then nval else mval

/-- One output row of `update_people_master`. -/
def peopleOutRow (cols : List String) (e : String) (mo no : Option PRow) : PRow :=
  { email := e
    vals := cols.map (fun c =>
      (c, peopleMergeVal (strongerFlag mo no) (clientFlipFlag mo no) mo no c)) }

/-- `update_people_master` (in-memory body, master read/write elided). -/
def update_people_master (master : List PRow) (session : PDF) : List PRow :=
  (outerMergeByEmail master session.rows).map
    (fun t => peopleOutRow session.cols t.1 t.2.1 t.2.2)

/-! ### Association-list lemmas for `PRow` -/

theorem lookup_build {f : String → Val} {cols : List String} {c : String} (h : c ∈ cols) :
    (cols.map (fun c' => (c', f c'))).lookup c = some (f c) := by
  induction cols with
  | nil => simp at h
  | cons c' cs ih =>
    by_cases hcc : c' = c
    · subst hcc
      have he : (c' == c') = true := beq_self_eq_true c'
      simp only [List.map_cons, List.lookup, he]
    · have he : (c == c') = false := by
        simp only [beq_eq_false_iff_ne, ne_eq]
        exact fun hx => hcc hx.symm
      have hcs : c ∈ cs := by
        rcases List.mem_cons.mp h with rfl | hcs
        · exact absurd rfl hcc
        · exact hcs
      simp only [List.map_cons, List.lookup, he]
      exact ih hcs

theorem lookup_build_not_mem {f : String → Val} {cols : List String} {c : String}
    (h : c ∉ cols) : (cols.map (fun c' => (c', f c'))).lookup c = none := by
  induction cols with
  | nil => rfl
  | cons c' cs ih =>
    have hne : (c == c') = false := by
      simp only [beq_eq_false_iff_ne, ne_eq]
      exact fun he => h (he ▸ List.mem_cons_self _ _)
    simp only [List.map_cons, List.lookup, hne]
    exact ih (fun hm => h (List.mem_cons_of_mem _ hm))

theorem lookup_eq_none_of_keys {l : List (String × Val)} (cols : List String) {c : String}
    (hk : ∀ p ∈ l, p.1 ∈ cols) (hc : c ∉ cols) : l.lookup c = none := by
  induction l with
  | nil => rfl
  | cons p ps ih =>
    obtain ⟨k, v⟩ := p
    have hne : (c == k) = false := by
      simp only [beq_eq_false_iff_ne, ne_eq]
      exact fun he => hc (he ▸ hk (k, v) (List.mem_cons_self _ _))
    simp only [List.lookup, hne]
    exact ih (fun q hq => hk q (List.mem_cons_of_mem _ hq))

theorem getPV_peopleOutRow_mem {cols : List String} {e : String} {mo no : Option PRow}
    {c : String} (h : c ∈ cols) :
    getPV (peopleOutRow cols e mo no) c
      = peopleMergeVal (strongerFlag mo no) (clientFlipFlag mo no) mo no c := by
  unfold getPV peopleOutRow
  rw [lookup_build h]
  rfl

theorem getPV_peopleOutRow_not_mem {cols : List String} {e : String} {mo no : Option PRow}
    {c : String} (h : c ∉ cols) :
    getPV (peopleOutRow cols e mo no) c = none := by
  unfold getPV peopleOutRow
  rw [lookup_build_not_mem h]
  rfl

/-- A missing merged output value forces a missing session value. -/
theorem peopleMergeVal_none {st fl : Bool} {mo no : Option PRow} {c : String}
    (h : peopleMergeVal st fl mo no c = none) : mergedVal no c = none := by
  unfold peopleMergeVal at h
  by_cases hn : (mergedVal no c).isSome
  · rcases hs : mergedVal no c with _ | v
    · rfl
    · exfalso
      rw [hs] at h
      by_cases ht : ((if nsColsPred c then (mergedVal mo c).isNone || st || fl
          else (mergedVal mo c).isNone) && (some v).isSome) = true
      · rw [if_pos ht] at h
        exact absurd h (by simp)
      · rw [if_neg ht] at h
        have hmN : (mergedVal mo c).isNone = true := by rw [h]; rfl
        have : (if nsColsPred c then (mergedVal mo c).isNone || st || fl
            else (mergedVal mo c).isNone) = true := by
          rw [hmN]
          cases nsColsPred c <;> simp
        exact ht (by simp [this])
  · exact Option.not_isSome_iff_eq_none.mp hn

/-! ### Idempotence of the people upsert -/

theorem mergedVal_none_of_not_mem {no : Option PRow} {cols : List String} {c : String}
    (hno : ∀ r, no = some r → ∀ p ∈ r.vals, p.1 ∈ cols) (hc : c ∉ cols) :
    mergedVal no c = none := by
  cases no with
  | none => rfl
  | some r =>
    show (r.vals.lookup c).join = none
    rw [lookup_eq_none_of_keys cols (hno r rfl) hc]
    rfl

theorem nsColsPred_matchType : nsColsPred "NS Match Type" = true := by decide

theorem nsColsPred_client : nsColsPred "Client?" = true := by decide

/-- After one merge pass, the stored match strength is at least the
session's. -/
theorem matchStrength_after (mo no : Option PRow) :
    matchStrength (mergedVal no "NS Match Type")
      ≤ matchStrength (peopleMergeVal (strongerFlag mo no) (clientFlipFlag mo no)
          mo no "NS Match Type") := by
  unfold peopleMergeVal
  rw [nsColsPred_matchType]
  simp only [if_true]
  cases hn : mergedVal no "NS Match Type" with
  | none => simp [matchStrength]
  | some v =>
    by_cases hc : (((mergedVal mo "NS Match Type").isNone || strongerFlag mo no
        || clientFlipFlag mo no) && (some v).isSome) = true
    · rw [if_pos hc]
    · rw [if_neg hc]
      simp only [Option.isSome_some, Bool.and_true, Bool.or_eq_true, not_or] at hc
      have hst : strongerFlag mo no = false := Bool.eq_false_iff.mpr hc.1.2
      have := of_decide_eq_false hst
      rw [hn] at this
      omega

/-- After one merge pass the stored client flag can no longer flip. -/
theorem clientFlipFlag_after {cols : List String} {e : String} {mo no : Option PRow}
    (hno : ∀ r, no = some r → ∀ p ∈ r.vals, p.1 ∈ cols) :
    clientFlipFlag (some (peopleOutRow cols e mo no)) no = false := by
  unfold clientFlipFlag
  cases hcl : toBoolF (mergedVal no "Client?") with
  | false => simp
  | true =>
    have hnsome : (mergedVal no "Client?").isSome = true := by
      cases hv : mergedVal no "Client?" with
      | none => rw [hv] at hcl; exact absurd hcl (by simp [toBoolF])
      | some _ => rfl
    by_cases hmem : "Client?" ∈ cols
    · have hP : mergedVal (some (peopleOutRow cols e mo no)) "Client?"
          = peopleMergeVal (strongerFlag mo no) (clientFlipFlag mo no) mo no "Client?" :=
        getPV_peopleOutRow_mem hmem
      rw [hP]
      have hres : toBoolF (peopleMergeVal (strongerFlag mo no) (clientFlipFlag mo no)
          mo no "Client?") = true := by
        unfold peopleMergeVal
        rw [nsColsPred_client]
        simp only [if_true]
        cases hm : toBoolF (mergedVal mo "Client?") with
        | false =>
          -- the flip flag is set, so the session value is taken
          have hflip : clientFlipFlag mo no = true := by
            unfold clientFlipFlag
            rw [hm, hcl]
            rfl
          rw [hflip]
          have : (((mergedVal mo "Client?").isNone || strongerFlag mo no || true)
              && (mergedVal no "Client?").isSome) = true := by
            rw [hnsome]
            simp
          rw [if_pos this]
          exact hcl
        | true =>
          -- both candidate values read as true
          by_cases hcond : (((mergedVal mo "Client?").isNone || strongerFlag mo no
              || clientFlipFlag mo no) && (mergedVal no "Client?").isSome) = true
          · rw [if_pos hcond]
            exact hcl
          · rw [if_neg hcond]
            exact hm
      rw [hres]
      rfl
    · exfalso
      rw [mergedVal_none_of_not_mem hno hmem] at hnsome
      exact absurd hnsome (by simp)

/-- After one merge pass the session match is never strictly stronger. -/
theorem strongerFlag_after {cols : List String} {e : String} {mo no : Option PRow}
    (hno : ∀ r, no = some r → ∀ p ∈ r.vals, p.1 ∈ cols) :
    strongerFlag (some (peopleOutRow cols e mo no)) no = false := by
  unfold strongerFlag
  rw [decide_eq_false_iff_not, not_lt]
  by_cases hmem : "NS Match Type" ∈ cols
  · have hP : mergedVal (some (peopleOutRow cols e mo no)) "NS Match Type"
        = peopleMergeVal (strongerFlag mo no) (clientFlipFlag mo no) mo no "NS Match Type" :=
      getPV_peopleOutRow_mem hmem
    rw [hP]
    exact matchStrength_after mo no
  · rw [mergedVal_none_of_not_mem hno hmem]
    exact Nat.zero_le _

/-- Re-merging a merged row with the same session row changes nothing. -/
theorem peopleOutRow_fixpoint {cols : List String} {e : String} {mo no : Option PRow}
    (hno : ∀ r, no = some r → ∀ p ∈ r.vals, p.1 ∈ cols) :
    peopleOutRow cols e (some (peopleOutRow cols e mo no)) no
      = peopleOutRow cols e mo no := by
  have hst : strongerFlag (some (peopleOutRow cols e mo no)) no = false :=
    strongerFlag_after hno
  have hfl : clientFlipFlag (some (peopleOutRow cols e mo no)) no = false :=
    clientFlipFlag_after hno
  have hpoint : ∀ c ∈ cols,
      peopleMergeVal false false (some (peopleOutRow cols e mo no)) no c
        = peopleMergeVal (strongerFlag mo no) (clientFlipFlag mo no) mo no c := by
    intro c hc
    have hPc : mergedVal (some (peopleOutRow cols e mo no)) c
        = peopleMergeVal (strongerFlag mo no) (clientFlipFlag mo no) mo no c :=
      getPV_peopleOutRow_mem hc
    conv_lhs => unfold peopleMergeVal
    rw [hPc]
    set v1 := peopleMergeVal (strongerFlag mo no) (clientFlipFlag mo no) mo no c with hv1
    clear_value v1
    have hcollapse : (if nsColsPred c then v1.isNone || false || false else v1.isNone)
        = v1.isNone := by
      cases nsColsPred c <;> simp
    simp only [hcollapse]
    cases hv : v1 with
    | some w => simp
    | none =>
      have hnone : mergedVal no c = none := peopleMergeVal_none (hv1.symm.trans hv)
      rw [hnone]
      simp
  calc peopleOutRow cols e (some (peopleOutRow cols e mo no)) no
      = ⟨e, cols.map (fun c => (c, peopleMergeVal
          (strongerFlag (some (peopleOutRow cols e mo no)) no)
          (clientFlipFlag (some (peopleOutRow cols e mo no)) no)
          (some (peopleOutRow cols e mo no)) no c))⟩ := rfl
    _ = ⟨e, cols.map (fun c => (c, peopleMergeVal false false
          (some (peopleOutRow cols e mo no)) no c))⟩ := by rw [hst, hfl]
    _ = ⟨e, cols.map (fun c => (c, peopleMergeVal (strongerFlag mo no)
          (clientFlipFlag mo no) mo no c))⟩ :=
        congrArg _ (List.map_congr_left (fun c hc => by rw [hpoint c hc]))
    _ = peopleOutRow cols e mo no := rfl

/-- `find?` on a unique-key list recovers each member by its key. -/
theorem find?_email_self {rows : List PRow} {s : PRow}
    (hnd : (rows.map PRow.email).Nodup) (hs : s ∈ rows) :
    rows.find? (fun x => x.email == s.email) = some s := by
  induction rows with
  | nil => simp at hs
  | cons r rs ih =>
    simp only [List.map_cons, List.nodup_cons] at hnd
    rcases List.mem_cons.mp hs with rfl | hmem
    · rw [List.find?_cons_of_pos _ (by simp)]
    · have hne : (r.email == s.email) = false := by
        simp only [beq_eq_false_iff_ne, ne_eq]
        intro he
        exact hnd.1 (List.mem_map.mpr ⟨s, hmem, he.symm⟩)
      rw [List.find?_cons_of_neg _ (by simp [hne])]
      exact ih hnd.2 hmem

/-- Every session email already appears in the first-pass output. -/
theorem session_email_mem_update {master : List PRow} {session : PDF} {s : PRow}
    (hs : s ∈ session.rows) :
    ∃ m1 ∈ update_people_master master session, m1.email = s.email := by
  unfold update_people_master outerMergeByEmail
  rw [List.map_append, List.map_map, List.map_map]
  by_cases hm : ∃ m ∈ master, m.email = s.email
  · obtain ⟨m, hmem, he⟩ := hm
    refine ⟨_, List.mem_append_left _ (List.mem_map.mpr ⟨m, hmem, rfl⟩), he⟩
  · have hany : master.any (fun m => m.email == s.email) = false := by
      rw [List.any_eq_false]
      intro m hmem
      simp only [beq_iff_eq]
      exact fun he => hm ⟨m, hmem, he⟩
    have hsf : s ∈ session.rows.filter
        (fun s => !(master.any (fun m => m.email == s.email))) :=
      List.mem_filter.mpr ⟨hs, by rw [hany]; rfl⟩
    exact ⟨_, List.mem_append_right _ (List.mem_map.mpr ⟨s, hsf, rfl⟩), rfl⟩

/-- `update_people_master` applied twice with the same session equals one
application (given unique session emails and a well-formed session frame). -/
theorem update_people_master_idem (master : List PRow) (session : PDF)
    (hnd : (session.rows.map PRow.email).Nodup) (hwf : session.WF) :
    update_people_master (update_people_master master session) session
      = update_people_master master session := by
  set M1 := update_people_master master session with hM1def
  have hfilter : session.rows.filter (fun s => !(M1.any (fun m => m.email == s.email))) = [] := by
    apply List.filter_eq_nil_iff.mpr
    intro s hs
    obtain ⟨m1, hm1, he⟩ := (session_email_mem_update hs :
      ∃ m1 ∈ update_people_master master session, m1.email = s.email)
    have : M1.any (fun m => m.email == s.email) = true :=
      List.any_eq_true.mpr ⟨m1, hm1, by simp [he]⟩
    simp [this]
  have hmerge : outerMergeByEmail M1 session.rows
      = M1.map (fun m => (m.email, some m, session.rows.find? (fun s => s.email == m.email))) := by
    unfold outerMergeByEmail
    rw [hfilter]
    simp
  calc update_people_master M1 session
      = M1.map (fun m1 => peopleOutRow session.cols m1.email (some m1)
          (session.rows.find? (fun s => s.email == m1.email))) := by
        unfold update_people_master
        rw [hmerge, List.map_map]
        rfl
    _ = M1.map id := by
        apply List.map_congr_left
        intro m1 hm1
        rw [hM1def] at hm1
        unfold update_people_master at hm1
        obtain ⟨t, ht, rfl⟩ := List.mem_map.mp hm1
        have hemail : (peopleOutRow session.cols t.1 t.2.1 t.2.2).email = t.1 := rfl
        rw [hemail]
        unfold outerMergeByEmail at ht
        rcases List.mem_append.mp ht with hl | hr
        · -- master-side pair: the session partner is literally the same query
          obtain ⟨m, hmem, rfl⟩ := List.mem_map.mp hl
          show peopleOutRow session.cols m.email
              (some (peopleOutRow session.cols m.email (some m)
                (session.rows.find? (fun s => s.email == m.email))))
              (session.rows.find? (fun s => s.email == m.email)) = _
          apply peopleOutRow_fixpoint
          intro r hr p hp
          have hrmem : r ∈ session.rows := List.mem_of_find?_eq_some hr
          exact hwf r hrmem p hp
        · -- session-only pair: `find?` recovers the same session row
          obtain ⟨s, hsf, rfl⟩ := List.mem_map.mp hr
          have hsmem : s ∈ session.rows := List.mem_of_mem_filter hsf
          show peopleOutRow session.cols s.email
              (some (peopleOutRow session.cols s.email none (some s)))
              (session.rows.find? (fun x => x.email == s.email)) = _
          rw [find?_email_self hnd hsmem]
          apply peopleOutRow_fixpoint
          intro r hsr p hp
          obtain rfl : s = r := Option.some.inj hsr
          exact hwf s hsmem p hp
    _ = M1 := List.map_id _

/-- C1: Both master upserts are idempotent: for every session table and every
initial master, applying `update_attendance_master` (dedupe on the composite
key `(email_clean, webinar_id, webinar_date)` keeping the session copy,
output sorted by key) twice with the same session yields the same attendance
master as applying it once, and applying `update_people_master` twice with
the same people session (unique session emails, well-formed session frame)
yields the same people master as applying it once. -/
theorem C1_master_upserts_idempotent :
    (∀ M S : List ARow,
      update_attendance_master (update_attendance_master M S) S
        = update_attendance_master M S)
    ∧ (∀ (master : List PRow) (session : PDF),
        (session.rows.map PRow.email).Nodup → session.WF →
        update_people_master (update_people_master master session) session
          = update_people_master master session) :=
  ⟨fun M S => upsertBy_idem attendanceKey_applyRegTime applyRegTime_idem M S,
   fun master session hnd hwf => update_people_master_idem master session hnd hwf⟩

/-- Witness for C1 at a concrete master/session pair. -/
theorem C1_master_upserts_idempotent_witness :
    (update_attendance_master
        (update_attendance_master
          [⟨some "b@y.com", some "w1", some "2024-01-02", none, []⟩]
          [⟨some "a@x.com", some "w1", some "2024_01_02", some "2024-01-02 10:00:00", []⟩])
        [⟨some "a@x.com", some "w1", some "2024_01_02", some "2024-01-02 10:00:00", []⟩]
      = update_attendance_master
          [⟨some "b@y.com", some "w1", some "2024-01-02", none, []⟩]
          [⟨some "a@x.com", some "w1", some "2024_01_02", some "2024-01-02 10:00:00", []⟩])
    ∧ (update_people_master
        (update_people_master
          [⟨"a@x.com", [("phone", some "555-1234"), ("NS Match Type", some "name")]⟩]
          ⟨["phone", "NS Match Type"],
            [⟨"a@x.com", [("phone", some "555-9999"), ("NS Match Type", some "email")]⟩]⟩)
        ⟨["phone", "NS Match Type"],
          [⟨"a@x.com", [("phone", some "555-9999"), ("NS Match Type", some "email")]⟩]⟩
      = update_people_master
          [⟨"a@x.com", [("phone", some "555-1234"), ("NS Match Type", some "name")]⟩]
          ⟨["phone", "NS Match Type"],
            [⟨"a@x.com", [("phone", some "555-9999"), ("NS Match Type", some "email")]⟩]⟩) :=
  ⟨C1_master_upserts_idempotent.1 _ _,
   C1_master_upserts_idempotent.2 _ _ (by decide) (by unfold PDF.WF; decide)⟩

/-- Members of a unique-key list are determined by their key. -/
theorem nodup_key_inj {key : α → κ} {l : List α} {a b : α}
    (h : (l.map key).Nodup) (ha : a ∈ l) (hb : b ∈ l) (hk : key a = key b) : a = b := by
  have hfa := filter_keyEq_of_nodup h ha
  have hbmem : b ∈ l.filter (fun x => key x == key a) :=
    List.mem_filter.mpr ⟨hb, by simp [hk]⟩
  rw [hfa] at hbmem
  have := List.mem_singleton.mp hbmem
  exact this.symm

/-- The merge pair behind an output row with a master email: with unique
master emails it is the master row itself together with its `find?` partner. -/
theorem update_people_row_of_master {master : List PRow} {session : PDF} {m out : PRow}
    (hndm : (master.map PRow.email).Nodup) (hm : m ∈ master)
    (hout : out ∈ update_people_master master session) (he : out.email = m.email) :
    out = peopleOutRow session.cols m.email (some m)
        (session.rows.find? (fun s => s.email == m.email)) := by
  unfold update_people_master at hout
  obtain ⟨t, ht, rfl⟩ := List.mem_map.mp hout
  unfold outerMergeByEmail at ht
  rcases List.mem_append.mp ht with hl | hr
  · obtain ⟨m', hmem', rfl⟩ := List.mem_map.mp hl
    have he' : m'.email = m.email := he
    obtain rfl : m' = m := nodup_key_inj hndm hmem' hm he'
    rfl
  · exfalso
    obtain ⟨s, hsf, rfl⟩ := List.mem_map.mp hr
    have hcond := List.of_mem_filter hsf
    have hes : s.email = m.email := he
    have hany : master.any (fun x => x.email == s.email) = true :=
      List.any_eq_true.mpr ⟨m, hm, by simp [hes]⟩
    rw [hany] at hcond
    exact absurd hcond (by simp)

/-- C6: Merge monotonicity for general fields: in `update_people_master`,
for every non-roster-linkage column and every email present in the master, a
non-missing master value is never replaced — the output value equals the
master value whenever the master value is non-null, and equals the session
value only where the master value was missing and the session value is
non-null. -/
theorem C6_general_fields_monotone (master : List PRow) (session : PDF)
    (hndm : (master.map PRow.email).Nodup)
    (m : PRow) (hm : m ∈ master) (c : String) (hc : c ∈ session.cols)
    (hns : nsColsPred c = false) :
    ∀ out ∈ update_people_master master session, out.email = m.email →
      ((getPV m c).isSome → getPV out c = getPV m c)
      ∧ (getPV m c = none → (getPV out c).isSome →
          ∃ s ∈ session.rows, s.email = m.email ∧ getPV out c = getPV s c) := by
  intro out hout he
  rw [update_people_row_of_master hndm hm hout he]
  cases hx : session.rows.find? (fun s => s.email == m.email) with
  | none =>
    rw [getPV_peopleOutRow_mem hc]
    unfold peopleMergeVal
    have h2 : mergedVal (none : Option PRow) c = none := rfl
    have hmv : mergedVal (some m) c = getPV m c := rfl
    rw [h2, hmv]
    simp
    intro h1 h2
    rw [h1] at h2
    exact absurd h2 (by simp)
  | some s =>
    rw [getPV_peopleOutRow_mem hc]
    unfold peopleMergeVal
    have h2 : mergedVal (some s) c = getPV s c := rfl
    have hmv : mergedVal (some m) c = getPV m c := rfl
    rw [h2, hmv, hns]
    constructor
    · intro hsome
      have hnone : (getPV m c).isNone = false := by
        rcases hy : getPV m c with _ | v
        · rw [hy] at hsome; exact absurd hsome (by simp)
        · rfl
      simp [hnone]
    · intro hmnone houts
      refine ⟨s, List.mem_of_find?_eq_some hx, by simpa using List.find?_some hx, ?_⟩
      rw [hmnone] at houts ⊢
      simp only [Option.isNone_none, Bool.false_eq_true, if_false, Bool.true_and] at houts ⊢
      cases hnv : (getPV s c) with
      | none =>
        rw [hnv] at houts
        simp at houts
      | some v =>
        simp

/-- Witness for C6: a populated master `phone` survives a session with a
different `phone`. -/
theorem C6_general_fields_monotone_witness :
    getPV (⟨"a@x.com", [("phone", some "555-1234")]⟩ : PRow) "phone"
      = getPV (⟨"a@x.com", [("phone", some "555-1234"), ("Company", some "Acme")]⟩ : PRow)
          "phone" :=
  ((C6_general_fields_monotone
      [⟨"a@x.com", [("phone", some "555-1234"), ("Company", some "Acme")]⟩]
      ⟨["phone"], [⟨"a@x.com", [("phone", some "555-9999")]⟩]⟩
      (by decide) _ (by decide) "phone" (by decide) (by decide))
    ⟨"a@x.com", [("phone", some "555-1234")]⟩ (by decide) (by decide)).1 (by decide)

/-- The tier ranking exactly as claim C5 words it: `none = 0`, `name = 1`,
`email = 2`, "with a name+zip match ranked between name and email" — scaled
by two so the in-between rank is a natural number. -/
def claimedStrength (v : Val) : Nat :=
  match v with
  | none => 0
  | some s =>
    let t := lowerStr s
    if t = "email" then 4 else if t = "name_zip" then 3 else if t = "name" then 2 else 0

/-- Counterexample to C5 as stated: the session row's `NS Match Type` is
`name_zip`, which the claim ranks strictly between `name` and `email`, the
master value of the roster column `NS Center` is non-null and the session
value is non-null, and the client flag does not flip — so the claim says the
session value `new` must be taken.  The code's `_match_strength` sends
`name_zip` through `.fillna(0)` to rank 0, so the master value `old` is kept. -/
theorem C5_counterexample :
    claimedStrength (some "name_zip") > claimedStrength (some "name")
    ∧ update_people_master
        [⟨"a@x.com", [("NS Match Type", some "name"), ("Client?", some "True"),
          ("NS Center", some "old")]⟩]
        ⟨["NS Match Type", "Client?", "NS Center"],
          [⟨"a@x.com", [("NS Match Type", some "name_zip"), ("Client?", some "True"),
            ("NS Center", some "new")]⟩]⟩
      = [⟨"a@x.com", [("NS Match Type", some "name"), ("Client?", some "True"),
          ("NS Center", some "old")]⟩] :=
  ⟨by decide, by decide⟩

/-- C5 (amended): in `update_people_master`, for every roster-linkage column
(prefix `NS ` plus `Client?` and `NS Match Type`) and every email present in
both master and session, the output takes the session's non-null value
exactly when the master value is missing, or the session's match-strength
tier is strictly stronger than the master's under the code's ordinal ranking
(`none = 0`, `name = 1`, `email = 2`, any other label — including
`name_zip` — ranking 0), or the client flag flips from false to true;
otherwise the master value is kept. -/
theorem C5_roster_linkage_overwrite (master : List PRow) (session : PDF)
    (hndm : (master.map PRow.email).Nodup) (hnds : (session.rows.map PRow.email).Nodup)
    (m s : PRow) (hm : m ∈ master) (hs : s ∈ session.rows) (hes : s.email = m.email)
    (c : String) (hc : c ∈ session.cols) (hns : nsColsPred c = true) :
    ∀ out ∈ update_people_master master session, out.email = m.email →
      getPV out c =
        if ((getPV m c).isNone
            || decide (matchStrength (getPV m "NS Match Type")
                < matchStrength (getPV s "NS Match Type"))
            || ((!toBoolF (getPV m "Client?")) && toBoolF (getPV s "Client?")))
          && (getPV s c).isSome
        then getPV s c else getPV m c := by
  intro out hout he
  rw [update_people_row_of_master hndm hm hout he]
  have hfind : session.rows.find? (fun x => x.email == m.email) = some s := by
    have := find?_email_self hnds hs
    rwa [hes] at this
  rw [hfind, getPV_peopleOutRow_mem hc]
  unfold peopleMergeVal strongerFlag clientFlipFlag
  rw [hns]
  rfl

/-- Witness for C5 (amended): an `email`-tier session corrects a `name`-tier
master row's `NS Center`. -/
theorem C5_roster_linkage_overwrite_witness :
    getPV (⟨"a@x.com", [("NS Match Type", some "email"), ("Client?", some "False"),
        ("NS Center", some "new")]⟩ : PRow) "NS Center"
      = if ((getPV (⟨"a@x.com", [("NS Match Type", some "name"), ("Client?", some "False"),
            ("NS Center", some "old")]⟩ : PRow) "NS Center").isNone
          || decide (matchStrength (getPV (⟨"a@x.com", [("NS Match Type", some "name"),
                ("Client?", some "False"), ("NS Center", some "old")]⟩ : PRow) "NS Match Type")
              < matchStrength (getPV (⟨"a@x.com", [("NS Match Type", some "email"),
                ("Client?", some "False"), ("NS Center", some "new")]⟩ : PRow) "NS Match Type"))
          || ((!toBoolF (getPV (⟨"a@x.com", [("NS Match Type", some "name"),
                ("Client?", some "False"), ("NS Center", some "old")]⟩ : PRow) "Client?"))
              && toBoolF (getPV (⟨"a@x.com", [("NS Match Type", some "email"),
                ("Client?", some "False"), ("NS Center", some "new")]⟩ : PRow) "Client?")))
          && (getPV (⟨"a@x.com", [("NS Match Type", some "email"), ("Client?", some "False"),
              ("NS Center", some "new")]⟩ : PRow) "NS Center").isSome
        then getPV (⟨"a@x.com", [("NS Match Type", some "email"), ("Client?", some "False"),
            ("NS Center", some "new")]⟩ : PRow) "NS Center"
        else getPV (⟨"a@x.com", [("NS Match Type", some "name"), ("Client?", some "False"),
            ("NS Center", some "old")]⟩ : PRow) "NS Center" :=
  (C5_roster_linkage_overwrite
      [⟨"a@x.com", [("NS Match Type", some "name"), ("Client?", some "False"),
        ("NS Center", some "old")]⟩]
      ⟨["NS Match Type", "Client?", "NS Center"],
        [⟨"a@x.com", [("NS Match Type", some "email"), ("Client?", some "False"),
          ("NS Center", some "new")]⟩]⟩
      (by decide) (by decide) _ _ (by decide) (by decide) (by decide)
      "NS Center" (by decide) (by decide))
    ⟨"a@x.com", [("NS Match Type", some "email"), ("Client?", some "False"),
      ("NS Center", some "new")]⟩ (by decide) (by decide)

/-! ## `split_people_and_attendance` (scripts/master_tables.py) -/

/-- Keys survive `keep="first"` deduplication. -/
theorem key_mem_dedupFirstBy {key : α → κ} {l : List α} {k : κ} (h : k ∈ l.map key) :
    k ∈ (dedupFirstBy key l).map key := by
  obtain ⟨a, ha, rfl⟩ := List.mem_map.mp h
  rcases hf : l.filter (fun b => key b == key a) with _ | ⟨b, rest⟩
  · exfalso
    have hmem : a ∈ l.filter (fun b => key b == key a) :=
      List.mem_filter.mpr ⟨ha, by simp⟩
    rw [hf] at hmem
    simp at hmem
  · have hb : firstWithKey key l (key a) = some b := by
      unfold firstWithKey
      rw [hf]
      rfl
    have hkb : key b = key a := by
      have : b ∈ l.filter (fun x => key x == key a) := by rw [hf]; exact List.mem_cons_self _ _
      simpa using List.of_mem_filter this
    have hbmem : b ∈ dedupFirstBy key l :=
      mem_dedupFirstBy_iff.mpr (by rw [hkb]; exact hb)
    exact List.mem_map.mpr ⟨b, hbmem, hkb⟩

/-- `split_people_and_attendance`: check required columns, project the
attendance columns for every session row, project the people columns and
drop duplicate `email_clean` values keeping the first occurrence
(`drop_duplicates` compares `NaN` keys equal).  The `people_cols` /
`attendance_cols` keyword arguments (whose defaults come from
`scripts/columns.py`) are parameters. -/
def split_people_and_attendance (session : DF)
    (people_cols attendance_cols : List String) : Except (List String) (DF × DF) :=
  if _hp : people_cols.filter (fun c => !(session.cols.contains c)) ≠ [] then
    .error (people_cols.filter (fun c => !(session.cols.contains c)))
  else if _ha : attendance_cols.filter (fun c => !(session.cols.contains c)) ≠ [] then
    .error (attendance_cols.filter (fun c => !(session.cols.contains c)))
  else if _hk : !(people_cols.contains "email_clean") then
    -- `drop_duplicates(subset=["email_clean"])` raises when the subset
    -- column is absent from the projected frame
    .error ["email_clean"]
  else
    .ok (⟨people_cols, dedupFirstBy (fun r => getVal r "email_clean")
            (session.rows.map (projectRow people_cols))⟩,
         ⟨attendance_cols, session.rows.map (projectRow attendance_cols)⟩)

/-- C10: for every session table containing the required columns,
`split_people_and_attendance` returns a people table with at most one row
per `email_clean` value, keeping the first occurrence — all rows whose
`email_clean` is null collapse into a single people row, since null keys
compare equal for this dedup — while the returned attendance table retains
every session row (one projected row per input row, in order). -/
theorem C10_split_people_and_attendance (session : DF)
    (people_cols attendance_cols : List String)
    (h1 : ∀ c ∈ people_cols, c ∈ session.cols)
    (h2 : ∀ c ∈ attendance_cols, c ∈ session.cols)
    (h3 : "email_clean" ∈ people_cols) :
    ∃ people att : DF,
      split_people_and_attendance session people_cols attendance_cols = .ok (people, att)
      ∧ att.rows = session.rows.map (projectRow attendance_cols)
      ∧ att.rows.length = session.rows.length
      ∧ (people.rows.map (fun r => getVal r "email_clean")).Nodup
      ∧ (∀ r ∈ people.rows,
          firstWithKey (fun r => getVal r "email_clean")
            (session.rows.map (projectRow people_cols)) (getVal r "email_clean") = some r)
      ∧ (∀ v : Val, v ∈ people.rows.map (fun r => getVal r "email_clean")
          ↔ v ∈ (session.rows.map (projectRow people_cols)).map
              (fun r => getVal r "email_clean")) := by
  refine ⟨⟨people_cols, dedupFirstBy (fun r => getVal r "email_clean")
      (session.rows.map (projectRow people_cols))⟩,
    ⟨attendance_cols, session.rows.map (projectRow attendance_cols)⟩,
    ?_, rfl, by simp, ?_, ?_, ?_⟩
  · unfold split_people_and_attendance
    rw [dif_neg (by simp; exact h1), dif_neg (by simp; exact h2), dif_neg (by simp; exact h3)]
  · exact nodup_keys_dedupFirstBy _ _
  · intro r hr
    exact mem_dedupFirstBy_iff.mp hr
  · intro v
    constructor
    · intro hv
      obtain ⟨r, hrmem, rfl⟩ := List.mem_map.mp hv
      exact List.mem_map.mpr ⟨r, mem_of_mem_dedupFirstBy hrmem, rfl⟩
    · exact key_mem_dedupFirstBy

/-- Witness for C10: two session rows share an email and two have null
emails; the people side keeps one row per email value and one null row, the
attendance side keeps all four rows. -/
theorem C10_split_people_and_attendance_witness :
    ∃ people att : DF,
      split_people_and_attendance
          ⟨["email_clean", "Name", "Webinar ID"],
            [[("email_clean", some "a@x.com"), ("Name", some "A"), ("Webinar ID", some "w1")],
             [("email_clean", none), ("Name", some "B"), ("Webinar ID", some "w1")],
             [("email_clean", some "a@x.com"), ("Name", some "A2"), ("Webinar ID", some "w1")],
             [("email_clean", none), ("Name", some "C"), ("Webinar ID", some "w1")]]⟩
          ["email_clean", "Name"] ["email_clean", "Webinar ID"] = .ok (people, att)
      ∧ att.rows = ([[("email_clean", some "a@x.com"), ("Name", some "A"), ("Webinar ID", some "w1")],
             [("email_clean", none), ("Name", some "B"), ("Webinar ID", some "w1")],
             [("email_clean", some "a@x.com"), ("Name", some "A2"), ("Webinar ID", some "w1")],
             [("email_clean", none), ("Name", some "C"), ("Webinar ID", some "w1")]] : List Row).map
            (projectRow ["email_clean", "Webinar ID"])
      ∧ att.rows.length = 4
      ∧ (people.rows.map (fun r => getVal r "email_clean")).Nodup
      ∧ (∀ r ∈ people.rows,
          firstWithKey (fun r => getVal r "email_clean")
            (([[("email_clean", some "a@x.com"), ("Name", some "A"), ("Webinar ID", some "w1")],
             [("email_clean", none), ("Name", some "B"), ("Webinar ID", some "w1")],
             [("email_clean", some "a@x.com"), ("Name", some "A2"), ("Webinar ID", some "w1")],
             [("email_clean", none), ("Name", some "C"), ("Webinar ID", some "w1")]] : List Row).map
              (projectRow ["email_clean", "Name"])) (getVal r "email_clean") = some r)
      ∧ (∀ v : Val, v ∈ people.rows.map (fun r => getVal r "email_clean")
          ↔ v ∈ (([[("email_clean", some "a@x.com"), ("Name", some "A"), ("Webinar ID", some "w1")],
             [("email_clean", none), ("Name", some "B"), ("Webinar ID", some "w1")],
             [("email_clean", some "a@x.com"), ("Name", some "A2"), ("Webinar ID", some "w1")],
             [("email_clean", none), ("Name", some "C"), ("Webinar ID", some "w1")]] : List Row).map
              (projectRow ["email_clean", "Name"])).map (fun r => getVal r "email_clean")) :=
  C10_split_people_and_attendance _ _ _ (by decide) (by decide) (by decide)

/-! ## `build_ns_lookup` (scripts/neoserra_helper.py)

Collision resolution sorts the colliding rows by
`[key_col, _last_counseling_dt]`, key ascending, date descending with `NaT`
last (`np.lexsort`, a stable sort — embedded as the stable `mergeSort`), and
keeps the first row of each key class. -/

/-- A parsed timestamp. -/
abbrev DT := (Nat × Nat × Nat) × (Nat × Nat × Nat)

/-- Order-embedding of a calendar-valid timestamp into the naturals. -/
def dtKey (t : DT) : Nat :=
  ((((t.1.1 * 13 + t.1.2.1) * 32 + t.1.2.2) * 24 + t.2.1) * 60 + t.2.2.1) * 60 + t.2.2.2

/-- Date order for the sort: later dates first, `NaT` last. -/
def dtLeB (a b : Option DT) : Bool :=
  match a, b with
  | some x, some y => decide (dtKey y ≤ dtKey x)
  | some _, none => true
  | none, some _ => false
  | none, none => true

/-- `sort_values(by=[key_col, "_last_counseling_dt"], ascending=[True, False],
na_position="last")` as a comparator (the key column is non-null on every
sorted row, so the `.getD ""` default is never observed). -/
def nsLe (keyCol : String) (dt : Row → Option DT) (r r' : Row) : Bool :=
  if (getVal r keyCol).getD "" = (getVal r' keyCol).getD "" then dtLeB (dt r) (dt r')
  else decide ((getVal r keyCol).getD "" < (getVal r' keyCol).getD "")

theorem dtLeB_refl (a : Option DT) : dtLeB a a = true := by
  cases a <;> simp [dtLeB]

theorem dtLeB_trans {a b c : Option DT} (h1 : dtLeB a b = true) (h2 : dtLeB b c = true) :
    dtLeB a c = true := by
  cases a <;> cases b <;> cases c <;> simp_all [dtLeB] <;> omega

theorem dtLeB_total (a b : Option DT) : (dtLeB a b || dtLeB b a) = true := by
  cases a <;> cases b <;> simp [dtLeB] <;> omega

theorem nsLe_trans (keyCol : String) (dt : Row → Option DT) :
    ∀ a b c, nsLe keyCol dt a b = true → nsLe keyCol dt b c = true →
      nsLe keyCol dt a c = true := by
  intro a b c h1 h2
  unfold nsLe at *
  by_cases hab : (getVal a keyCol).getD "" = (getVal b keyCol).getD "" <;>
    by_cases hbc : (getVal b keyCol).getD "" = (getVal c keyCol).getD ""
  · rw [if_pos hab] at h1
    rw [if_pos hbc] at h2
    rw [if_pos (hab.trans hbc)]
    exact dtLeB_trans h1 h2
  · rw [if_neg (fun h => hbc (hab.symm.trans h))]
    rw [if_neg hbc] at h2
    rw [hab]
    exact h2
  · rw [if_neg (fun h => hab (h.trans hbc.symm))]
    rw [if_neg hab] at h1
    rw [← hbc]
    exact h1
  · rw [if_neg hab] at h1
    rw [if_neg hbc] at h2
    have h1' := of_decide_eq_true h1
    have h2' := of_decide_eq_true h2
    have hac : (getVal a keyCol).getD "" < (getVal c keyCol).getD "" := lt_trans h1' h2'
    rw [if_neg (ne_of_lt hac)]
    exact decide_eq_true hac

theorem nsLe_total (keyCol : String) (dt : Row → Option DT) :
    ∀ a b, (nsLe keyCol dt a b || nsLe keyCol dt b a) = true := by
  intro a b
  unfold nsLe
  by_cases hab : (getVal a keyCol).getD "" = (getVal b keyCol).getD ""
  · rw [if_pos hab, if_pos hab.symm]
    exact dtLeB_total _ _
  · rw [if_neg hab, if_neg (fun h => hab h.symm)]
    rcases lt_or_gt_of_ne hab with h | h
    · simp [h]
    · simp [h]

/-- `pd.to_datetime(df[counseling_col], errors="coerce")` when the column is
present, all-`NaT` otherwise. -/
def counselingDT (cols : List String) (counselingCol : String) (r : Row) : Option DT :=
  if counselingCol ∈ cols then (getVal r counselingCol).bind (fun s => parseDateTime? s.data)
  else none

inductive LookupErr
  | missingKeyCol (c : String)
  | missingOutCol (cs : List String)
  | dupLabels
deriving DecidableEq, Repr

/-- Rows of the source whose key occurs at least twice among the usable
(non-null-key) rows: `df.duplicated(subset=[key_col], keep=False)`. -/
def dupKeyB (keyCol : String) (rows1 : List Row) (r : Row) : Bool :=
  decide (2 ≤ rows1.countP (fun r' => getVal r' keyCol == getVal r keyCol))

/-- The usable rows: `df = df[df[key_col].notna()]`. -/
def nsRows1 (ns : DF) (keyCol : String) : List Row :=
  ns.rows.filter (fun r => (getVal r keyCol).isSome)

/-- `df.loc[dup_mask]` — the colliding rows. -/
def nsCollide (ns : DF) (keyCol : String) : List Row :=
  (nsRows1 ns keyCol).filter (fun r => dupKeyB keyCol (nsRows1 ns keyCol) r)

/-- `df.loc[~dup_mask]` — the unique-key rows. -/
def nsSingle (ns : DF) (keyCol : String) : List Row :=
  (nsRows1 ns keyCol).filter (fun r => !(dupKeyB keyCol (nsRows1 ns keyCol) r))

/-- The colliding rows sorted by `[key_col, _last_counseling_dt]`. -/
def nsSorted (ns : DF) (keyCol counselingCol : String) : List Row :=
  (nsCollide ns keyCol).mergeSort (nsLe keyCol (counselingDT ns.cols counselingCol))

/-- `pd.concat([df_single, df_collide_best])` followed by the final
`drop_duplicates(subset=[key_col], keep="first")` guard. -/
def nsOutRows (ns : DF) (keyCol counselingCol : String) : List Row :=
  dedupFirstBy (fun r => getVal r keyCol)
    (nsSingle ns keyCol
      ++ dedupFirstBy (fun r => getVal r keyCol) (nsSorted ns keyCol counselingCol))

/-- `build_ns_lookup`: drop rows with a null key, resolve key collisions by
keeping the row with the latest counseling date (stable sort by key and
descending date, `NaT` last, then `drop_duplicates(keep="first")`), combine
with the unique-key rows, apply the final duplicate guard, and project onto
`[key_col] + keep_cols` (with `key_col` removed from `keep_cols`). -/
def build_ns_lookup (ns : DF) (keyCol : String) (keepCols : List String)
    (counselingCol : String) : Except LookupErr DF :=
  if keyCol ∉ ns.cols then .error (.missingKeyCol keyCol)
  else
    let keep := keepCols.filter (fun c => c ≠ keyCol)
    if (keyCol :: keep).filter (fun c => !(ns.cols.contains c)) ≠ [] then
      -- `.loc[:, [key_col, *keep_cols]]` raises on labels absent from the frame
      .error (.missingOutCol ((keyCol :: keep).filter (fun c => !(ns.cols.contains c))))
    else if !(keyCol :: keep).Nodup then
      -- `out.columns.duplicated().any()` safety check
      .error .dupLabels
    else
      .ok ⟨keyCol :: keep,
        (nsOutRows ns keyCol counselingCol).map (projectRow (keyCol :: keep))⟩

/-- Spec-side selection rule for claim C4: the retained row of a colliding
group is the first row (original order) whose parsed recency date is at
least every other row's, rows with unparseable or missing dates sorting
last — i.e. the latest date, ties resolved by earliest original row order. -/
def specPickLatest (dt : Row → Option DT) (grp : List Row) : Option Row :=
  grp.find? (fun r => grp.all (fun r' => dtLeB (dt r) (dt r')))

theorem getVal_projectRow_mem {cs : List String} {r : Row} {c : String} (h : c ∈ cs) :
    getVal (projectRow cs r) c = getVal r c := by
  unfold getVal projectRow
  rw [lookup_build h]
  rfl

theorem find?_eq_head?_filter (p : α → Bool) (l : List α) :
    l.find? p = (l.filter p).head? := by
  induction l with
  | nil => rfl
  | cons a t ih =>
    by_cases h : p a = true
    · rw [List.find?_cons_of_pos _ h, List.filter_cons_of_pos h]
      rfl
    · rw [List.find?_cons_of_neg _ (by simp [h]), List.filter_cons_of_neg (by simpa using h)]
      exact ih

/-- If the first row passing a weak filter also passes a stronger filter,
it is the first row passing the stronger filter as well. -/
theorem head?_filter_strengthen {p₁ p₂ : α → Bool} {l : List α} {x : α}
    (h : (l.filter p₁).head? = some x) (hx : p₂ x = true)
    (himp : ∀ y, p₂ y = true → p₁ y = true) :
    (l.filter p₂).head? = some x := by
  induction l with
  | nil => simp at h
  | cons a t ih =>
    by_cases h1 : p₁ a = true
    · rw [List.filter_cons_of_pos h1] at h
      simp only [List.head?_cons, Option.some.injEq] at h
      subst h
      by_cases h2 : p₂ a = true
      · rw [List.filter_cons_of_pos h2]
        rfl
      · exact absurd hx h2
    · have h2 : ¬(p₂ a = true) := fun hh => h1 (himp a hh)
      rw [List.filter_cons_of_neg (by simpa using h1)] at h
      rw [List.filter_cons_of_neg (by simpa using h2)]
      exact ih h

theorem nsOutRows_subset_rows1 {ns : DF} {keyCol counselingCol : String} {r : Row}
    (h : r ∈ nsOutRows ns keyCol counselingCol) : r ∈ nsRows1 ns keyCol := by
  have h1 := mem_of_mem_dedupFirstBy h
  rcases List.mem_append.mp h1 with hs | hb
  · exact List.mem_of_mem_filter hs
  · have h2 := mem_of_mem_dedupFirstBy hb
    have h3 : r ∈ nsCollide ns keyCol := (List.mergeSort_perm _ _).mem_iff.mp h2
    exact List.mem_of_mem_filter h3

theorem rows1_isSome {ns : DF} {keyCol : String} {r : Row}
    (h : r ∈ nsRows1 ns keyCol) : (getVal r keyCol).isSome = true := by
  unfold nsRows1 at h
  exact (List.mem_filter.mp h).2

/-- Counting rows with a given non-null key is unaffected by dropping the
null-key rows. -/
theorem countP_rows1_eq {ns : DF} {keyCol : String} {k : String} :
    (nsRows1 ns keyCol).countP (fun r => getVal r keyCol == some k)
      = ns.rows.countP (fun r => getVal r keyCol == some k) := by
  unfold nsRows1
  rw [List.countP_filter]
  apply List.countP_congr
  intro a _
  constructor
  · intro h
    simpa using (Bool.and_elim_left h)
  · intro h
    have he : getVal a keyCol = some k := by simpa using h
    simp [he]

theorem key_mem_nsOutRows {ns : DF} {keyCol counselingCol : String} {a : Row}
    (ha : a ∈ ns.rows) (hk : (getVal a keyCol).isSome = true) :
    getVal a keyCol ∈ (nsOutRows ns keyCol counselingCol).map (fun r => getVal r keyCol) := by
  have ha1 : a ∈ nsRows1 ns keyCol := List.mem_filter.mpr ⟨ha, hk⟩
  unfold nsOutRows
  apply key_mem_dedupFirstBy
  rw [List.map_append]
  by_cases hd : dupKeyB keyCol (nsRows1 ns keyCol) a = true
  · have hac : a ∈ nsCollide ns keyCol := List.mem_filter.mpr ⟨ha1, hd⟩
    have hks : getVal a keyCol
        ∈ (nsSorted ns keyCol counselingCol).map (fun r => getVal r keyCol) := by
      have hperm := (List.mergeSort_perm (nsCollide ns keyCol)
          (nsLe keyCol (counselingDT ns.cols counselingCol))).map
        (fun r => getVal r keyCol)
      exact hperm.mem_iff.mpr (List.mem_map.mpr ⟨a, hac, rfl⟩)
    exact List.mem_append_right _ (key_mem_dedupFirstBy hks)
  · have has : a ∈ nsSingle ns keyCol := List.mem_filter.mpr ⟨ha1, by simp [hd]⟩
    exact List.mem_append_left _ (List.mem_map.mpr ⟨a, has, rfl⟩)

/-- The collision winner kept by `build_ns_lookup` is the claim's pick:
latest parsed counseling date, unparseable/missing dates last, ties broken
by earliest original row order. -/
theorem nsOutRows_collision_pick (ns : DF) (keyCol counselingCol : String) (k : String)
    (h2 : 2 ≤ ns.rows.countP (fun r => getVal r keyCol == some k)) :
    ∀ r₀ ∈ nsOutRows ns keyCol counselingCol, getVal r₀ keyCol = some k →
      specPickLatest (counselingDT ns.cols counselingCol)
        (ns.rows.filter (fun r => getVal r keyCol == some k)) = some r₀ := by
  intro r₀ hr₀ hK
  have hcnt : (nsRows1 ns keyCol).countP (fun r => getVal r keyCol == some k)
      = ns.rows.countP (fun r => getVal r keyCol == some k) := countP_rows1_eq
  have hstep2 : (nsRows1 ns keyCol).filter (fun r => getVal r keyCol == some k)
      = ns.rows.filter (fun r => getVal r keyCol == some k) := by
    unfold nsRows1
    rw [List.filter_filter]
    apply List.filter_congr
    intro a _
    by_cases hka : getVal a keyCol = some k
    · simp [hka]
    · have hf : (getVal a keyCol == some k) = false := by simpa using hka
      simp [hf]
  have hgrp : (nsCollide ns keyCol).filter (fun r => getVal r keyCol == some k)
      = ns.rows.filter (fun r => getVal r keyCol == some k) := by
    unfold nsCollide
    rw [List.filter_filter]
    have hmid : (nsRows1 ns keyCol).filter
        (fun a => (getVal a keyCol == some k) && dupKeyB keyCol (nsRows1 ns keyCol) a)
        = (nsRows1 ns keyCol).filter (fun r => getVal r keyCol == some k) := by
      apply List.filter_congr
      intro a _
      by_cases hka : getVal a keyCol = some k
      · have hdup : dupKeyB keyCol (nsRows1 ns keyCol) a = true := by
          unfold dupKeyB
          rw [hka, hcnt]
          exact decide_eq_true h2
        simp [hka, hdup]
      · have hf : (getVal a keyCol == some k) = false := by simpa using hka
        simp [hf]
    rw [hmid, hstep2]
  set p₂ : Row → Bool := fun r =>
    (getVal r keyCol == some k)
      && (ns.rows.filter (fun r' => getVal r' keyCol == some k)).all
        (fun r' => dtLeB (counselingDT ns.cols counselingCol r)
          (counselingDT ns.cols counselingCol r')) with hp₂
  -- r₀ comes from the collision side
  unfold nsOutRows at hr₀
  have hr₀1 := mem_of_mem_dedupFirstBy hr₀
  have hdupr : dupKeyB keyCol (nsRows1 ns keyCol) r₀ = true := by
    unfold dupKeyB
    rw [hK, hcnt]
    exact decide_eq_true h2
  have hr₀best : r₀ ∈ dedupFirstBy (fun r => getVal r keyCol)
      (nsSorted ns keyCol counselingCol) := by
    rcases List.mem_append.mp hr₀1 with hs | hb
    · exfalso
      unfold nsSingle at hs
      have := (List.mem_filter.mp hs).2
      rw [hdupr] at this
      exact absurd this (by simp)
    · exact hb
  have hfirst := mem_dedupFirstBy_iff.mp hr₀best
  rw [hK] at hfirst
  unfold firstWithKey at hfirst
  -- pairwise order on the sorted collision rows
  have hPW : (nsSorted ns keyCol counselingCol).Pairwise
      (fun a b => nsLe keyCol (counselingDT ns.cols counselingCol) a b = true) := by
    unfold nsSorted
    exact List.sorted_mergeSort (nsLe_trans keyCol _) (nsLe_total keyCol _) _
  have hpermF : ((nsSorted ns keyCol counselingCol).filter
      (fun b => getVal b keyCol == some k)).Perm
      (ns.rows.filter (fun r => getVal r keyCol == some k)) := by
    have hp : (nsSorted ns keyCol counselingCol).Perm (nsCollide ns keyCol) := by
      unfold nsSorted
      exact List.mergeSort_perm _ _
    have := hp.filter (fun b => getVal b keyCol == some k)
    rwa [hgrp] at this
  -- r₀ heads its key class and is therefore date-maximal in the group
  have hmax : (ns.rows.filter (fun r' => getVal r' keyCol == some k)).all
      (fun r' => dtLeB (counselingDT ns.cols counselingCol r₀)
        (counselingDT ns.cols counselingCol r')) = true := by
    rw [List.all_eq_true]
    intro r' hr'
    have hr'F : r' ∈ (nsSorted ns keyCol counselingCol).filter
        (fun b => getVal b keyCol == some k) := hpermF.mem_iff.mpr hr'
    rcases hFst : (nsSorted ns keyCol counselingCol).filter
        (fun b => getVal b keyCol == some k) with _ | ⟨x, tail⟩
    · rw [hFst] at hr'F
      simp at hr'F
    · have hx : x = r₀ := by
        rw [hFst] at hfirst
        simpa using hfirst
      subst hx
      rw [hFst] at hr'F
      rcases List.mem_cons.mp hr'F with rfl | hr't
      · exact dtLeB_refl _
      · have hPWF : ((nsSorted ns keyCol counselingCol).filter
            (fun b => getVal b keyCol == some k)).Pairwise
            (fun a b => nsLe keyCol (counselingDT ns.cols counselingCol) a b = true) :=
          List.Pairwise.sublist (List.filter_sublist _) hPW
        rw [hFst] at hPWF
        have hle := (List.pairwise_cons.mp hPWF).1 r' hr't
        have hKr' : getVal r' keyCol = some k := by
          simpa using List.of_mem_filter hr'
        unfold nsLe at hle
        rw [hK, hKr'] at hle
        simpa using hle
  have hpmax₀ : p₂ r₀ = true := by
    rw [hp₂]
    simp only [hK, hmax, beq_self_eq_true, Bool.and_self]
  -- r₀ also heads the maximal class of the sorted list
  have hstrong : ((nsSorted ns keyCol counselingCol).filter p₂).head? = some r₀ :=
    head?_filter_strengthen hfirst hpmax₀
      (fun y hy => by
        rw [hp₂] at hy
        exact Bool.and_elim_left hy)
  -- the maximal class persists unchanged through the stable sort
  have hCpersist : (nsSorted ns keyCol counselingCol).filter p₂
      = (nsCollide ns keyCol).filter p₂ := by
    have hpwC : ((nsCollide ns keyCol).filter p₂).Pairwise
        (fun a b => nsLe keyCol (counselingDT ns.cols counselingCol) a b = true) := by
      apply List.pairwise_of_forall_mem_list
      intro a hamem b hbmem
      have hpa := List.of_mem_filter hamem
      have hpb := List.of_mem_filter hbmem
      rw [hp₂] at hpa hpb
      have hKa : getVal a keyCol = some k := by
        simpa using Bool.and_elim_left hpa
      have hKb : getVal b keyCol = some k := by
        simpa using Bool.and_elim_left hpb
      have hmaxa := Bool.and_elim_right hpa
      have hbgrp : b ∈ ns.rows.filter (fun r => getVal r keyCol == some k) := by
        rw [← hgrp]
        exact List.mem_filter.mpr ⟨List.mem_of_mem_filter hbmem, by simp [hKb]⟩
      unfold nsLe
      rw [hKa, hKb]
      rw [if_pos rfl]
      exact List.all_eq_true.mp hmaxa b hbgrp
    have hsub2 : ((nsCollide ns keyCol).filter p₂).Sublist
        (nsSorted ns keyCol counselingCol) := by
      unfold nsSorted
      exact List.sublist_mergeSort (nsLe_trans keyCol _) (nsLe_total keyCol _) hpwC
        (List.filter_sublist _)
    have hsub3 : ((nsCollide ns keyCol).filter p₂).Sublist
        ((nsSorted ns keyCol counselingCol).filter p₂) := by
      have h1 := List.Sublist.filter p₂ hsub2
      have hidem : ((nsCollide ns keyCol).filter p₂).filter p₂
          = (nsCollide ns keyCol).filter p₂ := by
        rw [List.filter_filter]
        apply List.filter_congr
        intro a _
        exact Bool.and_self _
      rwa [hidem] at h1
    have hlen : ((nsSorted ns keyCol counselingCol).filter p₂).length
        = ((nsCollide ns keyCol).filter p₂).length := by
      have hp : (nsSorted ns keyCol counselingCol).Perm (nsCollide ns keyCol) := by
        unfold nsSorted
        exact List.mergeSort_perm _ _
      exact (hp.filter p₂).length_eq
    exact (hsub3.eq_of_length hlen.symm).symm
  rw [hCpersist] at hstrong
  -- the spec pick is the head of the maximal class
  unfold specPickLatest
  rw [find?_eq_head?_filter]
  have hgf : (nsCollide ns keyCol).filter p₂
      = (ns.rows.filter (fun r => getVal r keyCol == some k)).filter
        (fun r => (ns.rows.filter (fun r' => getVal r' keyCol == some k)).all
          (fun r' => dtLeB (counselingDT ns.cols counselingCol r)
            (counselingDT ns.cols counselingCol r'))) := by
    have hswap : (nsCollide ns keyCol).filter p₂
        = (nsCollide ns keyCol).filter
          (fun a => ((ns.rows.filter (fun r' => getVal r' keyCol == some k)).all
            (fun r' => dtLeB (counselingDT ns.cols counselingCol a)
              (counselingDT ns.cols counselingCol r')))
            && (getVal a keyCol == some k)) := by
      apply List.filter_congr
      intro a _
      rw [hp₂]
      exact Bool.and_comm _ _
    rw [hswap, ← List.filter_filter, hgrp]
  rw [hgf] at hstrong
  exact hstrong

/-- C4: for every roster table containing the key column, with the requested
output labels present and duplicate-free, `build_ns_lookup` succeeds and
returns a frame whose columns are exactly the key column plus the keep
columns (key removed from the keep list), with exactly one row per distinct
non-null source key (keys unique, all non-null, and a key appears in the
output iff some source row carries it); and for every key with two or more
source rows the retained row is the projection of the group's pick: the row
with the latest parsed counseling date, unparseable or missing dates sorting
last, ties resolved by earliest original row order. -/
theorem C4_build_ns_lookup (ns : DF) (keyCol counselingCol : String)
    (keepCols : List String)
    (hkey : keyCol ∈ ns.cols)
    (hkeep : ∀ c ∈ keepCols, c ∈ ns.cols)
    (hnd : (keyCol :: keepCols.filter (fun c => c ≠ keyCol)).Nodup) :
    ∃ out : DF,
      build_ns_lookup ns keyCol keepCols counselingCol = .ok out
      ∧ out.cols = keyCol :: keepCols.filter (fun c => c ≠ keyCol)
      ∧ out.cols.Nodup
      ∧ (out.rows.map (fun r => getVal r keyCol)).Nodup
      ∧ (∀ r ∈ out.rows, (getVal r keyCol).isSome = true)
      ∧ (∀ k : String, (∃ r ∈ out.rows, getVal r keyCol = some k)
          ↔ ∃ a ∈ ns.rows, getVal a keyCol = some k)
      ∧ (∀ k : String, 2 ≤ ns.rows.countP (fun r => getVal r keyCol == some k) →
          ∀ r ∈ out.rows, getVal r keyCol = some k →
            ∃ r₀, specPickLatest (counselingDT ns.cols counselingCol)
                (ns.rows.filter (fun r' => getVal r' keyCol == some k)) = some r₀
              ∧ r = projectRow (keyCol :: keepCols.filter (fun c => c ≠ keyCol)) r₀) := by
  refine ⟨⟨keyCol :: keepCols.filter (fun c => c ≠ keyCol),
    (nsOutRows ns keyCol counselingCol).map
      (projectRow (keyCol :: keepCols.filter (fun c => c ≠ keyCol)))⟩,
    ?_, rfl, hnd, ?_, ?_, ?_, ?_⟩
  · have hfilt : (keyCol :: keepCols.filter (fun c => c ≠ keyCol)).filter
        (fun c => !(ns.cols.contains c)) = [] := by
      rw [List.filter_eq_nil_iff]
      intro c hc
      rcases List.mem_cons.mp hc with rfl | hck
      · simp [hkey]
      · simp [hkeep c (List.mem_of_mem_filter hck)]
    unfold build_ns_lookup
    rw [if_neg (not_not_intro hkey)]
    simp [hfilt, hnd]
    have hc1 : ¬(keyCol ∈ ns.cols → ∃ x ∈ keepCols, ¬x = keyCol ∧ x ∉ ns.cols) := by
      intro h
      rcases h hkey with ⟨x, hx, -, hnot⟩
      exact hnot (hkeep x hx)
    have hfc : keepCols.filter (fun c => decide (c ≠ keyCol))
        = keepCols.filter (fun c => !decide (c = keyCol)) := by
      apply List.filter_congr
      intro a _
      simp [ne_eq, decide_not]
    have hc2 : (keepCols.filter (fun c => !decide (c = keyCol))).Nodup := by
      rw [← hfc]
      exact List.Nodup.of_cons hnd
    rw [if_neg hc1, if_pos hc2]
  · have hprojkeys : (((nsOutRows ns keyCol counselingCol).map
        (projectRow (keyCol :: keepCols.filter (fun c => c ≠ keyCol)))).map
        (fun r => getVal r keyCol))
        = (nsOutRows ns keyCol counselingCol).map (fun r => getVal r keyCol) := by
      rw [List.map_map]
      apply List.map_congr_left
      intro a _
      exact getVal_projectRow_mem (List.mem_cons_self _ _)
    dsimp only
    rw [hprojkeys]
    unfold nsOutRows
    exact nodup_keys_dedupFirstBy _ _
  · intro r hr
    dsimp only at hr
    rcases List.mem_map.mp hr with ⟨r₀, hr₀, rfl⟩
    rw [getVal_projectRow_mem (List.mem_cons_self _ _)]
    exact rows1_isSome (nsOutRows_subset_rows1 hr₀)
  · intro k
    constructor
    · rintro ⟨r, hr, hK⟩
      dsimp only at hr
      rcases List.mem_map.mp hr with ⟨r₀, hr₀, rfl⟩
      rw [getVal_projectRow_mem (List.mem_cons_self _ _)] at hK
      exact ⟨r₀, List.mem_of_mem_filter (nsOutRows_subset_rows1 hr₀), hK⟩
    · rintro ⟨a, ha, hK⟩
      have hs : (getVal a keyCol).isSome = true := by rw [hK]; rfl
      have hmem : getVal a keyCol
          ∈ (nsOutRows ns keyCol counselingCol).map (fun r => getVal r keyCol) :=
        key_mem_nsOutRows ha hs
      rcases List.mem_map.mp hmem with ⟨r₀, hr₀, hk₀⟩
      refine ⟨projectRow (keyCol :: keepCols.filter (fun c => c ≠ keyCol)) r₀,
        List.mem_map.mpr ⟨r₀, hr₀, rfl⟩, ?_⟩
      rw [getVal_projectRow_mem (List.mem_cons_self _ _), hk₀, hK]
  · intro k h2 r hr hK
    dsimp only at hr
    rcases List.mem_map.mp hr with ⟨r₀, hr₀, rfl⟩
    rw [getVal_projectRow_mem (List.mem_cons_self _ _)] at hK
    exact ⟨r₀, nsOutRows_collision_pick ns keyCol counselingCol k h2 r₀ hr₀ hK, rfl⟩

/-- A small concrete roster with a key collision, used to instantiate C4. -/
def nsW : DF :=
  ⟨["Client ID", "Last Counseling", "Phone"],
   [[("Client ID", some "a"), ("Last Counseling", some "01/02/2020"), ("Phone", some "111")],
    [("Client ID", some "a"), ("Last Counseling", some "03/04/2021"), ("Phone", some "222")],
    [("Client ID", some "b"), ("Last Counseling", none), ("Phone", some "333")]]⟩

theorem C4_build_ns_lookup_witness :
    ("Client ID" ∈ nsW.cols)
    ∧ (∀ c ∈ (["Phone"] : List String), c ∈ nsW.cols)
    ∧ ("Client ID" :: (["Phone"] : List String).filter (fun c => c ≠ "Client ID")).Nodup
    ∧ (∃ out : DF,
        build_ns_lookup nsW "Client ID" ["Phone"] "Last Counseling" = .ok out
        ∧ out.cols = "Client ID" :: (["Phone"] : List String).filter (fun c => c ≠ "Client ID")
        ∧ out.cols.Nodup
        ∧ (out.rows.map (fun r => getVal r "Client ID")).Nodup
        ∧ (∀ r ∈ out.rows, (getVal r "Client ID").isSome = true)
        ∧ (∀ k : String, (∃ r ∈ out.rows, getVal r "Client ID" = some k)
            ↔ ∃ a ∈ nsW.rows, getVal a "Client ID" = some k)
        ∧ (∀ k : String, 2 ≤ nsW.rows.countP (fun r => getVal r "Client ID" == some k) →
            ∀ r ∈ out.rows, getVal r "Client ID" = some k →
              ∃ r₀, specPickLatest (counselingDT nsW.cols "Last Counseling")
                  (nsW.rows.filter (fun r' => getVal r' "Client ID" == some k)) = some r₀
                ∧ r = projectRow ("Client ID" :: (["Phone"] : List String).filter
                    (fun c => c ≠ "Client ID")) r₀)) :=
  ⟨by decide, by decide, by decide,
    C4_build_ns_lookup nsW "Client ID" "Last Counseling" ["Phone"]
      (by decide) (by decide) (by decide)⟩

/-! ## The three-tier webinar–NeoSerra matcher
(`scripts/match_webinar_to_neoserra.py`, `scripts/zip_codes.py`) -/

theorem lookup_append (l₁ l₂ : List (String × Val)) (k : String) :
    (l₁ ++ l₂).lookup k = (l₁.lookup k).or (l₂.lookup k) := by
  induction l₁ with
  | nil => rfl
  | cons p t ih =>
    obtain ⟨a, v⟩ := p
    by_cases h : (k == a) = true
    · simp only [List.cons_append, List.lookup, h, Option.or]
    · have h' : (k == a) = false := Bool.eq_false_iff.mpr h
      simp only [List.cons_append, List.lookup, h']
      exact ih

theorem lookup_map_set_ne (t : List (String × Val)) (c c' : String) (v : Val) (h : c' ≠ c) :
    (t.map (fun p => if p.1 == c then (c, v) else p)).lookup c' = t.lookup c' := by
  induction t with
  | nil => rfl
  | cons p t ih =>
    obtain ⟨a, w⟩ := p
    simp only [List.map_cons]
    by_cases hac : (a == c) = true
    · rw [if_pos hac]
      have ha2 : a = c := eq_of_beq hac
      subst ha2
      have hcc : (c' == a) = false := by simpa using h
      simp only [List.lookup, hcc]
      exact ih
    · rw [if_neg hac]
      by_cases hca : (c' == a) = true
      · simp only [List.lookup, hca]
      · have hf : (c' == a) = false := Bool.eq_false_iff.mpr hca
        simp only [List.lookup, hf]
        exact ih

theorem lookup_map_set_self (t : List (String × Val)) (c : String) (v : Val)
    (ha : t.any (fun p => p.1 == c) = true) :
    (t.map (fun p => if p.1 == c then (c, v) else p)).lookup c = some v := by
  induction t with
  | nil => simp at ha
  | cons p t ih =>
    obtain ⟨a, w⟩ := p
    simp only [List.map_cons]
    by_cases hac : (a == c) = true
    · rw [if_pos hac]
      simp [List.lookup]
    · rw [if_neg hac]
      have hca : (c == a) = false := by
        simp only [beq_eq_false_iff_ne, ne_eq]
        intro he
        exact hac (beq_iff_eq.mpr he.symm)
      simp only [List.lookup, hca]
      apply ih
      simpa [Bool.eq_false_iff.mpr hac] using ha

theorem lookup_eq_none_of_any_false {r : Row} {c : String}
    (h : r.any (fun p => p.1 == c) = false) : r.lookup c = none := by
  induction r with
  | nil => rfl
  | cons p t ih =>
    obtain ⟨a, w⟩ := p
    simp only [List.any_cons, Bool.or_eq_false_iff] at h
    have hca : (c == a) = false := by
      simp only [beq_eq_false_iff_ne, ne_eq]
      intro he
      have := h.1
      simp only [beq_eq_false_iff_ne, ne_eq] at this
      exact this he.symm
    simp only [List.lookup, hca]
    exact ih h.2

theorem lookup_setVal_ne (r : Row) (c c' : String) (v : Val) (h : c' ≠ c) :
    (setVal r c v).lookup c' = r.lookup c' := by
  unfold setVal
  by_cases ha : r.any (fun p => p.1 == c) = true
  · rw [if_pos ha]
    exact lookup_map_set_ne r c c' v h
  · rw [if_neg ha, lookup_append]
    have h1 : ([(c, v)] : List (String × Val)).lookup c' = none := by
      have hcc : (c' == c) = false := by simpa using h
      simp [List.lookup, hcc]
    rw [h1, Option.or_none]

theorem getVal_setVal_ne (r : Row) {c c' : String} (v : Val) (h : c' ≠ c) :
    getVal (setVal r c v) c' = getVal r c' := by
  unfold getVal
  rw [lookup_setVal_ne r c c' v h]

theorem getVal_setVal_self (r : Row) (c : String) (v : Val) :
    getVal (setVal r c v) c = v := by
  unfold getVal setVal
  by_cases ha : r.any (fun p => p.1 == c) = true
  · rw [if_pos ha, lookup_map_set_self r c v ha]
    rfl
  · rw [if_neg ha, lookup_append,
      lookup_eq_none_of_any_false (Bool.eq_false_iff.mpr ha)]
    simp [List.lookup]

theorem lookup_filter_names {r : Row} {cs : List String} {k : String}
    (h : cs.contains k = false) :
    (r.filter (fun p => !(cs.contains p.1))).lookup k = r.lookup k := by
  induction r with
  | nil => rfl
  | cons p t ih =>
    obtain ⟨a, w⟩ := p
    by_cases hma : cs.contains a = true
    · rw [List.filter_cons_of_neg (by simpa using hma)]
      have hka : (k == a) = false := by
        simp only [beq_eq_false_iff_ne, ne_eq]
        intro he
        rw [he] at h
        rw [h] at hma
        exact absurd hma (by simp)
      simp only [List.lookup, hka]
      exact ih
    · rw [List.filter_cons_of_pos (by simpa using hma)]
      by_cases hk : (k == a) = true
      · simp only [List.lookup, hk]
      · have hf : (k == a) = false := Bool.eq_false_iff.mpr hk
        simp only [List.lookup, hf]
        exact ih

/-- A string ending in the merge suffix `"_ns"` cannot equal a string whose
last three characters differ from it. -/
theorem append_ns_ne {c t : String} (hne : t.data.reverse.take 3 ≠ ['s', 'n', '_']) :
    c ++ "_ns" ≠ t := by
  obtain ⟨cd⟩ := c
  intro h
  apply hne
  have hd : cd ++ "_ns".data = t.data := congrArg String.data h
  rw [← hd, List.reverse_append]
  rfl

/-- `clean_zip_5`'s per-value cleaning: drop the Excel prefix `="` (or a bare
`=`) and a trailing `"` — the regex `^="?|"$` — then extract the first run of
five consecutive digits (`(\d{5})`), `NaN` when absent. -/
def stripExcelWrap (cs : List Char) : List Char :=
  let cs1 := match cs with
    | '=' :: '"' :: t => t
    | '=' :: t => t
    | t => t
  match cs1.getLast? with
  | some c => if c = '"' then cs1.dropLast else cs1
  | none => cs1

def extract5 : List Char → Option (List Char)
  | [] => none
  | c :: t =>
    let five := (c :: t).take 5
    if five.length = 5 && five.all (fun d => d.isDigit) then some five
    else extract5 t

def cleanZipVal (v : Val) : Val :=
  v.bind (fun s => (extract5 (stripExcelWrap s.data)).map (fun l => String.mk l))

/-- `clean_zip_5(df, raw_zip_col, out_col)`. -/
def clean_zip_5 (df : DF) (rawZipCol outCol : String) : DF :=
  ⟨if outCol ∈ df.cols then df.cols else df.cols ++ [outCol],
   df.rows.map (fun r => setVal r outCol (cleanZipVal (getVal r rawZipCol)))⟩

/-- The matcher's ZIP normalisation: reuse an existing `zip_clean` column,
else clean the raw ZIP column, else create an all-`NaN` `zip_clean` column. -/
def ensureZipClean (df : DF) (rawZipCol : String) : DF :=
  if "zip_clean" ∈ df.cols then df
  else if rawZipCol ∈ df.cols then clean_zip_5 df rawZipCol "zip_clean"
  else ⟨df.cols ++ ["zip_clean"], df.rows.map (fun r => setVal r "zip_clean" none)⟩

def ensureZipCleanCols (cols : List String) : List String :=
  if "zip_clean" ∈ cols then cols else cols ++ ["zip_clean"]

def ensureZipCleanRow (cols : List String) (rawZipCol : String) (r : Row) : Row :=
  if "zip_clean" ∈ cols then r
  else if rawZipCol ∈ cols then setVal r "zip_clean" (cleanZipVal (getVal r rawZipCol))
  else setVal r "zip_clean" none

/-- Keys may never appear among the keep columns (`blocked`). -/
def blockedKeyCols : List String := ["email_clean", "full_name_clean"]

def matchKeep (nsKeepCols : List String) : List String :=
  nsKeepCols.filter (fun c => !(blockedKeyCols.contains c))

/-- `ns_keep_cols_fill`: with `protect_webinar_cols=True`, only columns not
already native to the webinar frame may be filled. -/
def matchFillCols (webCols : List String) (nsKeepCols : List String) (protect : Bool) :
    List String :=
  if protect then (matchKeep nsKeepCols).filter (fun c => !(webCols.contains c))
  else matchKeep nsKeepCols

/-- `_name_zip_key` = `full_name_clean.fillna("") + "|" + zip_clean.fillna("")`. -/
def nameZipKeyVal (r : Row) : Val :=
  some ((getVal r "full_name_clean").getD "" ++ "|" ++ (getVal r "zip_clean").getD "")

/-- The partner row of a left merge against a lookup with unique non-null
keys (`build_ns_lookup` output): the first — hence only — row carrying the
key; a null key matches nothing. -/
def mergePartner (lk : DF) (keyCol : String) (v : Val) : Option Row :=
  if v.isSome then lk.rows.find? (fun r => getVal r keyCol == v) else none

/-- `suffixes=("", "_ns")`: a lookup column colliding with an existing
webinar column is renamed. -/
def nsSuffix (outCols : List String) (c : String) : String :=
  if c ∈ outCols then c ++ "_ns" else c

/-- Tier 1, per row: left merge on `email_clean` with
`indicator="_email_merge_status"`. -/
def tier1Row (outCols : List String) (nsEmail : DF) (w : Row) : Row :=
  let partner := mergePartner nsEmail "email_clean" (getVal w "email_clean")
  w ++ (nsEmail.cols.filter (fun c => c ≠ "email_clean")).map
      (fun c => (nsSuffix outCols c, partner.bind (fun p => getVal p c)))
    ++ [("_email_merge_status", some (if partner.isSome then "both" else "left_only"))]

/-- `ns_match_source = "none"`, then `"email"` where the indicator is `both`. -/
def setSourceRow (r : Row) : Row :=
  setVal r "ns_match_source"
    (some (if getVal r "_email_merge_status" == some "both" then "email" else "none"))

/-- `need_name_zip`: email merge failed and both name and ZIP are present. -/
def needNameZip (r : Row) : Bool :=
  (getVal r "_email_merge_status" == some "left_only")
    && (getVal r "full_name_clean").isSome && (getVal r "zip_clean").isSome

/-- `need_name`: email merge failed, no tier matched yet, name present. -/
def needName (r : Row) : Bool :=
  (getVal r "_email_merge_status" == some "left_only")
    && (getVal r "ns_match_source" == some "none")
    && (getVal r "full_name_clean").isSome

/-- Whether a fallback merge counts as a match: `Client ID` landed when that
column exists in the fill frame, otherwise any keep column landed. -/
def tierMatched (lk : DF) (keyCol : String) (partner : Option Row) : Bool :=
  if "Client ID" ∈ lk.cols then (partner.bind (fun p => getVal p "Client ID")).isSome
  else match partner with
    | none => false
    | some p => (lk.cols.filter (fun c => c ≠ keyCol)).any (fun c => (getVal p c).isSome)

/-- The fallback fill loop: for every fillable column present both in the
output frame and in the fill frame, assign the partner's value (`NaN` when
the merge found none). -/
def applyFills (fillCols outCols fillFrameCols : List String)
    (partner : Option Row) (r : Row) : Row :=
  (fillCols.filter (fun c => outCols.contains c && fillFrameCols.contains c)).foldl
    (fun acc c => setVal acc c (partner.bind (fun p => getVal p c))) r

/-- Tier 2, per row: build `_name_zip_key`, and where `need_name_zip` holds
merge against the name+zip lookup, fill, and record the `name_zip` source on
a match. -/
def tier2Row (fillCols outCols : List String) (nsNameZip : DF) (r : Row) : Row :=
  let r1 := setVal r "_name_zip_key" (nameZipKeyVal r)
  if needNameZip r1 then
    let partner := mergePartner nsNameZip "_name_zip_key" (getVal r1 "_name_zip_key")
    let r2 := applyFills fillCols outCols nsNameZip.cols partner r1
    if tierMatched nsNameZip "_name_zip_key" partner
    then setVal r2 "ns_match_source" (some "name_zip") else r2
  else r1

/-- Tier 3, per row: where `need_name` holds merge against the name-only
lookup, fill, and record the `name` source on a match. -/
def tier3Row (fillCols outCols : List String) (nsName : DF) (r : Row) : Row :=
  if needName r then
    let partner := mergePartner nsName "full_name_clean" (getVal r "full_name_clean")
    let r2 := applyFills fillCols outCols nsName.cols partner r
    if tierMatched nsName "full_name_clean" partner
    then setVal r2 "ns_match_source" (some "name") else r2
  else r

/-- `drop(columns=[...])` restricted to one row. -/
def dropPairs (cs : List String) (r : Row) : Row := r.filter (fun p => !(cs.contains p.1))

/-- `is_client` / `client_status` assignment. -/
def clientFlagRow (hasCID : Bool) (r : Row) : Row :=
  if hasCID then
    setVal (setVal r "is_client" (some (if (getVal r "Client ID").isSome then "True" else "False")))
      "client_status" (some (if (getVal r "Client ID").isSome then "client" else "non_client"))
  else
    setVal (setVal r "is_client" (some "False")) "client_status" (some "non_client")

def ensureCol (cols : List String) (c : String) : List String :=
  if c ∈ cols then cols else cols ++ [c]

/-- The NeoSerra frame with the composite `_name_zip_key` column added. -/
def matchNsForZip (ns : DF) : DF :=
  let nsNorm := ensureZipClean ns "Physical Address ZIP Code"
  ⟨ensureCol nsNorm.cols "_name_zip_key",
   nsNorm.rows.map (fun r => setVal r "_name_zip_key" (nameZipKeyVal r))⟩

/-- The column labels of the merged frame after the three tiers. -/
def matchCols3 (webCols : List String) (nsEmail : DF) : List String :=
  ensureCol (ensureCol (ensureZipCleanCols webCols
    ++ (nsEmail.cols.filter (fun c => c ≠ "email_clean")).map
        (nsSuffix (ensureZipCleanCols webCols))
    ++ ["_email_merge_status"]) "ns_match_source") "_name_zip_key"

inductive MatchErr
  | missingRequired (cs : List String)
  | lookupFailed (e : LookupErr)
  | identityMutation (n : Nat)
deriving DecidableEq, Repr

def matchHasCID (webCols : List String) (nsEmail : DF) : Bool :=
  ((matchCols3 webCols nsEmail).filter
    (fun c => !((["_email_merge_status", "_name_zip_key"] : List String).contains c))).contains
    "Client ID"

/-- The whole per-row pipeline of the matcher: ZIP normalisation, email
merge, source assignment, the two fallback tiers, column cleanup and the
client flags. -/
def matchRowFull (webCols fillCols cols3 : List String)
    (nsEmail nsNameZip nsName : DF) (hasCID : Bool) (w : Row) : Row :=
  clientFlagRow hasCID
    (dropPairs ["_email_merge_status", "_name_zip_key"]
      (tier3Row fillCols cols3 nsName
        (tier2Row fillCols cols3 nsNameZip
          (setSourceRow (tier1Row (ensureZipCleanCols webCols) nsEmail
            (ensureZipCleanRow webCols "Zip/Postal Code" w))))))

/-- `out.columns` after dropping the merge bookkeeping columns, plus the
client-flag columns. -/
def matchOutCols (webCols : List String) (nsEmail : DF) : List String :=
  ensureCol (ensureCol ((matchCols3 webCols nsEmail).filter
    (fun c => !((["_email_merge_status", "_name_zip_key"] : List String).contains c)))
    "is_client") "client_status"

/-- The matcher's output frame once the three lookups are built. -/
def matchAssemble (webinar : DF) (nsKeepCols : List String) (protect : Bool)
    (nsEmail nsNameZip nsName : DF) : DF :=
  ⟨matchOutCols webinar.cols nsEmail,
   webinar.rows.map (matchRowFull webinar.cols
     (matchFillCols webinar.cols nsKeepCols protect)
     (matchCols3 webinar.cols nsEmail) nsEmail nsNameZip nsName
     (matchHasCID webinar.cols nsEmail))⟩

/-- The `validate_email_unchanged` guard: compare `email_clean.fillna("")`
before and after and raise when any row changed. -/
def matchValidate (webinar out6 : DF) (validate : Bool) : Except MatchErr DF :=
  if validate then
    if (((out6.rows.map (fun r => (getVal r "email_clean").getD "")).zip
        (webinar.rows.map (fun r => (getVal r "email_clean").getD ""))).filter
        (fun p => p.1 ≠ p.2)).length ≠ 0 then
      .error (.identityMutation
        (((out6.rows.map (fun r => (getVal r "email_clean").getD "")).zip
          (webinar.rows.map (fun r => (getVal r "email_clean").getD ""))).filter
          (fun p => p.1 ≠ p.2)).length)
    else .ok out6
  else .ok out6

/-- `match_webinar_to_neoserra` (default column names; the two safeguard
switches are explicit parameters).  `KeyError` on missing required columns
and the `ValueError` of the email-mutation validator become `Except`
errors, as do the `build_ns_lookup` failures. -/
def match_webinar_to_neoserra (webinar ns : DF) (nsKeepCols : List String)
    (counselingCol : String) (protect validate : Bool) : Except MatchErr DF :=
  if (["email_clean", "full_name_clean"] : List String).filter
      (fun c => !(webinar.cols.contains c)) ≠ [] then
    .error (.missingRequired ((["email_clean", "full_name_clean"] : List String).filter
      (fun c => !(webinar.cols.contains c))))
  else
    match build_ns_lookup (ensureZipClean ns "Physical Address ZIP Code") "email_clean"
        (matchKeep nsKeepCols) counselingCol with
    | .error e => .error (.lookupFailed e)
    | .ok nsEmail =>
      match build_ns_lookup (matchNsForZip ns) "_name_zip_key"
          (matchKeep nsKeepCols) counselingCol with
      | .error e => .error (.lookupFailed e)
      | .ok nsNameZip =>
        match build_ns_lookup (ensureZipClean ns "Physical Address ZIP Code")
            "full_name_clean" (matchKeep nsKeepCols) counselingCol with
        | .error e => .error (.lookupFailed e)
        | .ok nsName =>
          matchValidate webinar
            (matchAssemble webinar nsKeepCols protect nsEmail nsNameZip nsName) validate

theorem getVal_ensureZipCleanRow {cols : List String} {rawCol : String} {r : Row}
    {t : String} (ht : t ≠ "zip_clean") :
    getVal (ensureZipCleanRow cols rawCol r) t = getVal r t := by
  unfold ensureZipCleanRow
  by_cases h1 : "zip_clean" ∈ cols
  · rw [if_pos h1]
  · rw [if_neg h1]
    by_cases h2 : rawCol ∈ cols
    · rw [if_pos h2, getVal_setVal_ne _ _ ht]
    · rw [if_neg h2, getVal_setVal_ne _ _ ht]

theorem getVal_tier1Row {outCols : List String} {lk : DF} {w : Row} {t : String}
    (hmid : ∀ c ∈ lk.cols, c ≠ "email_clean" → nsSuffix outCols c ≠ t)
    (hst : t ≠ "_email_merge_status") :
    getVal (tier1Row outCols lk w) t = getVal w t := by
  have hT : tier1Row outCols lk w =
      w ++ (lk.cols.filter (fun c => c ≠ "email_clean")).map
          (fun c => (nsSuffix outCols c,
            (mergePartner lk "email_clean" (getVal w "email_clean")).bind (fun p => getVal p c)))
        ++ [("_email_merge_status",
            some (if (mergePartner lk "email_clean" (getVal w "email_clean")).isSome
              then "both" else "left_only"))] := rfl
  have hmidN : ((lk.cols.filter (fun c => c ≠ "email_clean")).map
      (fun c => (nsSuffix outCols c,
        (mergePartner lk "email_clean" (getVal w "email_clean")).bind
          (fun p => getVal p c)))).lookup t = none := by
    apply lookup_eq_none_of_keys
      ((lk.cols.filter (fun c => c ≠ "email_clean")).map (nsSuffix outCols))
    · intro p hp
      rcases List.mem_map.mp hp with ⟨c, hc, rfl⟩
      exact List.mem_map.mpr ⟨c, hc, rfl⟩
    · intro hmem
      rcases List.mem_map.mp hmem with ⟨c, hc, he⟩
      have hcc := List.mem_of_mem_filter hc
      have hcne : c ≠ "email_clean" := by simpa using List.of_mem_filter hc
      exact hmid c hcc hcne he
  have hstN : ([("_email_merge_status",
      some (if (mergePartner lk "email_clean" (getVal w "email_clean")).isSome
        then "both" else "left_only"))] : List (String × Val)).lookup t = none := by
    have hcc : (t == "_email_merge_status") = false := by simpa using hst
    simp [List.lookup, hcc]
  unfold getVal
  rw [hT, lookup_append, lookup_append, hmidN, hstN, Option.or_none, Option.or_none]

theorem getVal_applyFills {fillCols outCols fcols : List String} {partner : Option Row}
    {r : Row} {t : String} (h : ∀ c ∈ fillCols, c ≠ t) :
    getVal (applyFills fillCols outCols fcols partner r) t = getVal r t := by
  unfold applyFills
  have hgen : ∀ (l : List String), (∀ c ∈ l, c ≠ t) → ∀ r : Row,
      getVal (l.foldl (fun acc c => setVal acc c (partner.bind (fun p => getVal p c))) r) t
        = getVal r t := by
    intro l
    induction l with
    | nil => intro _ r; rfl
    | cons c cs ih =>
      intro hl r
      rw [List.foldl_cons, ih (fun d hd => hl d (List.mem_cons_of_mem _ hd)) _]
      exact getVal_setVal_ne _ _ (Ne.symm (hl c (List.mem_cons_self _ _)))
  apply hgen
  intro c hc
  exact h c (List.mem_of_mem_filter hc)

theorem getVal_tier2Row {fillCols outCols : List String} {lk : DF} {r : Row} {t : String}
    (hfill : ∀ c ∈ fillCols, c ≠ t) (h1 : t ≠ "_name_zip_key")
    (h2 : t ≠ "ns_match_source") :
    getVal (tier2Row fillCols outCols lk r) t = getVal r t := by
  by_cases hn : needNameZip (setVal r "_name_zip_key" (nameZipKeyVal r)) = true
  · by_cases hm : tierMatched lk "_name_zip_key"
        (mergePartner lk "_name_zip_key"
          (getVal (setVal r "_name_zip_key" (nameZipKeyVal r)) "_name_zip_key")) = true
    · have hT : getVal (tier2Row fillCols outCols lk r) t
          = getVal (setVal (applyFills fillCols outCols lk.cols
              (mergePartner lk "_name_zip_key"
                (getVal (setVal r "_name_zip_key" (nameZipKeyVal r)) "_name_zip_key"))
              (setVal r "_name_zip_key" (nameZipKeyVal r)))
              "ns_match_source" (some "name_zip")) t := by
        unfold tier2Row
        simp only [hn, hm, if_true]
      rw [hT, getVal_setVal_ne _ _ h2, getVal_applyFills hfill, getVal_setVal_ne _ _ h1]
    · have hT : getVal (tier2Row fillCols outCols lk r) t
          = getVal (applyFills fillCols outCols lk.cols
              (mergePartner lk "_name_zip_key"
                (getVal (setVal r "_name_zip_key" (nameZipKeyVal r)) "_name_zip_key"))
              (setVal r "_name_zip_key" (nameZipKeyVal r))) t := by
        unfold tier2Row
        simp only [hn, if_true, if_neg hm]
      rw [hT, getVal_applyFills hfill, getVal_setVal_ne _ _ h1]
  · have hT : getVal (tier2Row fillCols outCols lk r) t
        = getVal (setVal r "_name_zip_key" (nameZipKeyVal r)) t := by
      unfold tier2Row
      simp only [if_neg hn]
    rw [hT, getVal_setVal_ne _ _ h1]

theorem getVal_tier3Row {fillCols outCols : List String} {lk : DF} {r : Row} {t : String}
    (hfill : ∀ c ∈ fillCols, c ≠ t) (h2 : t ≠ "ns_match_source") :
    getVal (tier3Row fillCols outCols lk r) t = getVal r t := by
  by_cases hn : needName r = true
  · by_cases hm : tierMatched lk "full_name_clean"
        (mergePartner lk "full_name_clean" (getVal r "full_name_clean")) = true
    · have hT : getVal (tier3Row fillCols outCols lk r) t
          = getVal (setVal (applyFills fillCols outCols lk.cols
              (mergePartner lk "full_name_clean" (getVal r "full_name_clean")) r)
              "ns_match_source" (some "name")) t := by
        unfold tier3Row
        simp only [hn, hm, if_true]
      rw [hT, getVal_setVal_ne _ _ h2, getVal_applyFills hfill]
    · have hT : getVal (tier3Row fillCols outCols lk r) t
          = getVal (applyFills fillCols outCols lk.cols
              (mergePartner lk "full_name_clean" (getVal r "full_name_clean")) r) t := by
        unfold tier3Row
        simp only [hn, if_true, if_neg hm]
      rw [hT, getVal_applyFills hfill]
  · have hT : getVal (tier3Row fillCols outCols lk r) t = getVal r t := by
      unfold tier3Row
      simp only [if_neg hn]
    rw [hT]

theorem getVal_dropPairs {cs : List String} {r : Row} {t : String}
    (h : cs.contains t = false) : getVal (dropPairs cs r) t = getVal r t := by
  unfold dropPairs getVal
  rw [lookup_filter_names h]

theorem getVal_clientFlagRow {hasCID : Bool} {r : Row} {t : String}
    (h1 : t ≠ "is_client") (h2 : t ≠ "client_status") :
    getVal (clientFlagRow hasCID r) t = getVal r t := by
  unfold clientFlagRow
  cases hasCID with
  | true =>
    rw [if_pos rfl, getVal_setVal_ne _ _ h2, getVal_setVal_ne _ _ h1]
  | false =>
    rw [if_neg (by simp), getVal_setVal_ne _ _ h2, getVal_setVal_ne _ _ h1]

theorem getVal_setSourceRow {r : Row} {t : String} (h : t ≠ "ns_match_source") :
    getVal (setSourceRow r) t = getVal r t := by
  unfold setSourceRow
  rw [getVal_setVal_ne _ _ h]

theorem ensureZipClean_eq (df : DF) (raw : String) :
    ensureZipClean df raw
      = ⟨ensureZipCleanCols df.cols, df.rows.map (ensureZipCleanRow df.cols raw)⟩ := by
  unfold ensureZipClean ensureZipCleanCols clean_zip_5
  by_cases h1 : "zip_clean" ∈ df.cols
  · simp only [if_pos h1]
    have hm : df.rows.map (ensureZipCleanRow df.cols raw) = df.rows := by
      have hmc : df.rows.map (ensureZipCleanRow df.cols raw)
          = df.rows.map (fun r => r) :=
        List.map_congr_left (fun r _ => by unfold ensureZipCleanRow; rw [if_pos h1])
      rw [hmc, List.map_id']
    rw [hm]
  · simp only [if_neg h1]
    by_cases h2 : raw ∈ df.cols
    · simp only [if_pos h2]
      congr 1
      apply List.map_congr_left
      intro r _
      unfold ensureZipCleanRow
      rw [if_neg h1, if_pos h2]
    · simp only [if_neg h2]
      congr 1
      apply List.map_congr_left
      intro r _
      unfold ensureZipCleanRow
      rw [if_neg h1, if_neg h2]

theorem build_ns_lookup_ok_cols {ns : DF} {keyCol : String} {keepCols : List String}
    {counselingCol : String} {out : DF}
    (h : build_ns_lookup ns keyCol keepCols counselingCol = .ok out) :
    out.cols = keyCol :: keepCols.filter (fun c => c ≠ keyCol) := by
  unfold build_ns_lookup at h
  split at h
  · exact absurd h (by simp)
  · have h' : (if (keyCol :: keepCols.filter (fun c => c ≠ keyCol)).filter
        (fun c => !(ns.cols.contains c)) ≠ [] then
        Except.error (LookupErr.missingOutCol
          ((keyCol :: keepCols.filter (fun c => c ≠ keyCol)).filter
            (fun c => !(ns.cols.contains c))))
      else if !(keyCol :: keepCols.filter (fun c => c ≠ keyCol)).Nodup then
        Except.error LookupErr.dupLabels
      else Except.ok ⟨keyCol :: keepCols.filter (fun c => c ≠ keyCol),
        (nsOutRows ns keyCol counselingCol).map
          (projectRow (keyCol :: keepCols.filter (fun c => c ≠ keyCol)))⟩)
      = Except.ok out := h
    split at h'
    · exact absurd h' (by simp)
    · split at h'
      · exact absurd h' (by simp)
      · have he := Except.ok.inj h'
        rw [← he]

theorem nsSuffix_ne {outCols : List String} {c t : String} (hct : c ≠ t)
    (hns : t.data.reverse.take 3 ≠ ['s', 'n', '_']) : nsSuffix outCols c ≠ t := by
  unfold nsSuffix
  by_cases h : c ∈ outCols
  · rw [if_pos h]
    exact append_ns_ne hns
  · rw [if_neg h]
    exact hct

/-- The full per-row matcher pipeline never touches the identity keys
`email_clean` and `full_name_clean`. -/
theorem matchRowFull_preserves {webCols : List String} {nsKeepCols : List String}
    {protect : Bool} {cols3 : List String} {nsEmail nsNameZip nsName : DF}
    {hasCID : Bool} {w : Row} {t : String}
    (ht : t = "email_clean" ∨ t = "full_name_clean")
    (hEcols : ∀ c ∈ nsEmail.cols, c ≠ "email_clean" →
      blockedKeyCols.contains c = false) :
    getVal (matchRowFull webCols (matchFillCols webCols nsKeepCols protect) cols3
      nsEmail nsNameZip nsName hasCID w) t = getVal w t := by
  have htz : t ≠ "zip_clean" := by rcases ht with rfl | rfl <;> decide
  have h1 : t ≠ "_email_merge_status" := by rcases ht with rfl | rfl <;> decide
  have h2 : t ≠ "ns_match_source" := by rcases ht with rfl | rfl <;> decide
  have h3 : t ≠ "_name_zip_key" := by rcases ht with rfl | rfl <;> decide
  have h5 : t ≠ "is_client" := by rcases ht with rfl | rfl <;> decide
  have h6 : t ≠ "client_status" := by rcases ht with rfl | rfl <;> decide
  have hdrop : (["_email_merge_status", "_name_zip_key"] : List String).contains t
      = false := by rcases ht with rfl | rfl <;> decide
  have hfill : ∀ c ∈ matchFillCols webCols nsKeepCols protect, c ≠ t := by
    intro c hc
    have hkeep : c ∈ matchKeep nsKeepCols := by
      unfold matchFillCols at hc
      cases protect with
      | true =>
        rw [if_pos rfl] at hc
        exact List.mem_of_mem_filter hc
      | false =>
        rw [if_neg (by simp)] at hc
        exact hc
    have hb : blockedKeyCols.contains c = false := by
      unfold matchKeep at hkeep
      simpa using List.of_mem_filter hkeep
    intro he
    subst he
    rcases ht with rfl | rfl
    · simp [blockedKeyCols] at hb
    · simp [blockedKeyCols] at hb
  have hmid : ∀ c ∈ nsEmail.cols, c ≠ "email_clean" →
      nsSuffix (ensureZipCleanCols webCols) c ≠ t := by
    intro c hc hcne
    have hb := hEcols c hc hcne
    have hct : c ≠ t := by
      intro he
      subst he
      rcases ht with rfl | rfl
      · exact hcne rfl
      · simp [blockedKeyCols] at hb
    apply nsSuffix_ne hct
    rcases ht with rfl | rfl
    · decide
    · decide
  unfold matchRowFull
  rw [getVal_clientFlagRow h5 h6, getVal_dropPairs hdrop,
    getVal_tier3Row hfill h2, getVal_tier2Row hfill h3 h2,
    getVal_setSourceRow h2, getVal_tier1Row hmid h1, getVal_ensureZipCleanRow htz]

theorem filter_ne_zip_map {α β : Type} [DecidableEq β] (l : List α) (f g : α → β)
    (h : ∀ x ∈ l, f x = g x) :
    ((l.map f).zip (l.map g)).filter (fun p => p.1 ≠ p.2) = [] := by
  induction l with
  | nil => rfl
  | cons a t ih =>
    simp only [List.map_cons, List.zip_cons_cons]
    rw [List.filter_cons_of_neg]
    · exact ih (fun x hx => h x (List.mem_cons_of_mem _ hx))
    · simp [h a (List.mem_cons_self _ _)]

theorem match_ok_shape {webinar ns : DF} {nsKeepCols : List String}
    {counselingCol : String} {protect validate : Bool} {out : DF}
    (h : match_webinar_to_neoserra webinar ns nsKeepCols counselingCol protect validate
      = .ok out) :
    ∃ nsEmail nsNameZip nsName : DF,
      build_ns_lookup (ensureZipClean ns "Physical Address ZIP Code") "email_clean"
          (matchKeep nsKeepCols) counselingCol = .ok nsEmail
      ∧ build_ns_lookup (matchNsForZip ns) "_name_zip_key"
          (matchKeep nsKeepCols) counselingCol = .ok nsNameZip
      ∧ build_ns_lookup (ensureZipClean ns "Physical Address ZIP Code")
          "full_name_clean" (matchKeep nsKeepCols) counselingCol = .ok nsName
      ∧ out = matchAssemble webinar nsKeepCols protect nsEmail nsNameZip nsName := by
  unfold match_webinar_to_neoserra at h
  split at h
  · exact absurd h (by simp)
  · split at h
    · exact absurd h (by simp)
    · rename_i nsEmail hE
      split at h
      · exact absurd h (by simp)
      · rename_i nsNameZip hZ
        split at h
        · exact absurd h (by simp)
        · rename_i nsName hN
          refine ⟨nsEmail, nsNameZip, nsName, hE, hZ, hN, ?_⟩
          unfold matchValidate at h
          split at h
          · split at h
            · exact absurd h (by simp)
            · exact (Except.ok.inj h).symm
          · exact (Except.ok.inj h).symm

/-- C3: with both safeguards on, `match_webinar_to_neoserra` preserves
identity — every successful result has exactly as many rows as the webinar
input and leaves each row's `email_clean` and `full_name_clean` unchanged —
and the identity-mutation error is never actually raised, for any input. -/
theorem C3_identity_preservation (webinar ns : DF) (nsKeepCols : List String)
    (counselingCol : String) :
    (∀ out : DF,
      match_webinar_to_neoserra webinar ns nsKeepCols counselingCol true true = .ok out →
        out.rows.length = webinar.rows.length
        ∧ ∀ i : Nat, ∀ hi : i < webinar.rows.length, ∀ hi' : i < out.rows.length,
            getVal (out.rows.get ⟨i, hi'⟩) "email_clean"
              = getVal (webinar.rows.get ⟨i, hi⟩) "email_clean"
            ∧ getVal (out.rows.get ⟨i, hi'⟩) "full_name_clean"
              = getVal (webinar.rows.get ⟨i, hi⟩) "full_name_clean")
    ∧ ∀ n : Nat,
        match_webinar_to_neoserra webinar ns nsKeepCols counselingCol true true
          ≠ .error (.identityMutation n) := by
  have hEcols_of : ∀ nsEmail : DF,
      build_ns_lookup (ensureZipClean ns "Physical Address ZIP Code") "email_clean"
        (matchKeep nsKeepCols) counselingCol = .ok nsEmail →
      ∀ c ∈ nsEmail.cols, c ≠ "email_clean" → blockedKeyCols.contains c = false := by
    intro nsEmail hE c hc hcne
    rw [build_ns_lookup_ok_cols hE] at hc
    rcases List.mem_cons.mp hc with rfl | hc2
    · exact absurd rfl hcne
    · have hk : c ∈ matchKeep nsKeepCols := List.mem_of_mem_filter hc2
      unfold matchKeep at hk
      simpa using List.of_mem_filter hk
  constructor
  · intro out hok
    obtain ⟨nsEmail, nsNameZip, nsName, hE, hZ, hN, hout⟩ := match_ok_shape hok
    subst hout
    constructor
    · show (webinar.rows.map _).length = _
      exact List.length_map _ _
    · intro i hi hi'
      have hrow : (matchAssemble webinar nsKeepCols true nsEmail nsNameZip
          nsName).rows.get ⟨i, hi'⟩
          = matchRowFull webinar.cols (matchFillCols webinar.cols nsKeepCols true)
            (matchCols3 webinar.cols nsEmail) nsEmail nsNameZip nsName
            (matchHasCID webinar.cols nsEmail) (webinar.rows.get ⟨i, hi⟩) := by
        show (webinar.rows.map _).get _ = _
        simp [List.get_eq_getElem, List.getElem_map]
      rw [hrow]
      exact ⟨matchRowFull_preserves (Or.inl rfl) (hEcols_of nsEmail hE),
        matchRowFull_preserves (Or.inr rfl) (hEcols_of nsEmail hE)⟩
  · intro n hbad
    unfold match_webinar_to_neoserra at hbad
    split at hbad
    · exact absurd hbad (by simp)
    · split at hbad
      · exact absurd hbad (by simp)
      · rename_i nsEmail hE
        split at hbad
        · exact absurd hbad (by simp)
        · rename_i nsNameZip hZ
          split at hbad
          · exact absurd hbad (by simp)
          · rename_i nsName hN
            unfold matchValidate at hbad
            rw [if_pos rfl] at hbad
            have hzero : ((((matchAssemble webinar nsKeepCols true nsEmail nsNameZip
                nsName).rows.map (fun r => (getVal r "email_clean").getD "")).zip
                (webinar.rows.map (fun r => (getVal r "email_clean").getD ""))).filter
                (fun p => p.1 ≠ p.2)).length = 0 := by
              have hrows : (matchAssemble webinar nsKeepCols true nsEmail nsNameZip
                  nsName).rows.map (fun r => (getVal r "email_clean").getD "")
                  = webinar.rows.map (fun w =>
                    (getVal (matchRowFull webinar.cols
                      (matchFillCols webinar.cols nsKeepCols true)
                      (matchCols3 webinar.cols nsEmail) nsEmail nsNameZip nsName
                      (matchHasCID webinar.cols nsEmail) w) "email_clean").getD "") := by
                show (webinar.rows.map _).map _ = _
                rw [List.map_map]
                rfl
              rw [hrows, filter_ne_zip_map webinar.rows _ _
                (fun x _ => congrArg (fun o => Option.getD o "")
                  (matchRowFull_preserves (Or.inl rfl) (hEcols_of nsEmail hE)))]
              rfl
            rw [if_neg (not_not_intro hzero)] at hbad
            exact absurd hbad (by simp)

/-- C2: a webinar row whose `email_clean` has an entry in the email-keyed
roster lookup gets `ns_match_source = "email"` in the matcher's output, and
that row is never considered by the fallback tiers: the `need_name_zip` mask
is false at that row's merged record, and the `need_name` mask is false at
its tier-2 output, for whatever name+zip lookup the run built. -/
theorem C2_email_tier_priority (webinar ns : DF) (nsKeepCols : List String)
    (counselingCol : String) (out : DF)
    (hok : match_webinar_to_neoserra webinar ns nsKeepCols counselingCol true true
      = .ok out)
    (i : Nat) (hi : i < webinar.rows.length)
    (hw : (webinar.rows.get ⟨i, hi⟩).all (fun p => webinar.cols.contains p.1) = true)
    (hres : "_email_merge_status" ∉ webinar.cols)
    (hresK : "_email_merge_status" ∉ nsKeepCols)
    (nsEmail : DF)
    (hE : build_ns_lookup (ensureZipClean ns "Physical Address ZIP Code") "email_clean"
      (matchKeep nsKeepCols) counselingCol = .ok nsEmail)
    (hp : (mergePartner nsEmail "email_clean"
      (getVal (webinar.rows.get ⟨i, hi⟩) "email_clean")).isSome = true) :
    ∃ hi' : i < out.rows.length,
      getVal (out.rows.get ⟨i, hi'⟩) "ns_match_source" = some "email"
      ∧ needNameZip (setVal (setSourceRow (tier1Row (ensureZipCleanCols webinar.cols)
            nsEmail (ensureZipCleanRow webinar.cols "Zip/Postal Code"
              (webinar.rows.get ⟨i, hi⟩))))
          "_name_zip_key" (nameZipKeyVal (setSourceRow (tier1Row
            (ensureZipCleanCols webinar.cols) nsEmail
            (ensureZipCleanRow webinar.cols "Zip/Postal Code"
              (webinar.rows.get ⟨i, hi⟩)))))) = false
      ∧ ∀ nsNameZip : DF,
          build_ns_lookup (matchNsForZip ns) "_name_zip_key" (matchKeep nsKeepCols)
            counselingCol = .ok nsNameZip →
          needName (tier2Row (matchFillCols webinar.cols nsKeepCols true)
            (matchCols3 webinar.cols nsEmail) nsNameZip
            (setSourceRow (tier1Row (ensureZipCleanCols webinar.cols) nsEmail
              (ensureZipCleanRow webinar.cols "Zip/Postal Code"
                (webinar.rows.get ⟨i, hi⟩))))) = false := by
  obtain ⟨nsEmail', nsNameZip', nsName', hE', hZ', hN', hout⟩ := match_ok_shape hok
  rw [hE] at hE'
  obtain rfl : nsEmail = nsEmail' := Except.ok.inj hE'
  subst hout
  set w : Row := webinar.rows.get ⟨i, hi⟩ with hwdef
  set r0 : Row := ensureZipCleanRow webinar.cols "Zip/Postal Code" w with hr0
  set r1 : Row := tier1Row (ensureZipCleanCols webinar.cols) nsEmail r0 with hr1
  set r2 : Row := setSourceRow r1 with hr2
  have hwkeys : ∀ p ∈ w, p.1 ∈ webinar.cols := by
    intro p hp2
    have := List.all_eq_true.mp hw p hp2
    simpa using this
  have hr0lookup : r0.lookup "_email_merge_status" = none := by
    rw [hr0]
    have hwl : w.lookup "_email_merge_status" = none :=
      lookup_eq_none_of_keys webinar.cols hwkeys hres
    unfold ensureZipCleanRow
    by_cases hz : "zip_clean" ∈ webinar.cols
    · rw [if_pos hz]
      exact hwl
    · rw [if_neg hz]
      by_cases hraw : "Zip/Postal Code" ∈ webinar.cols
      · rw [if_pos hraw, lookup_setVal_ne _ _ _ _ (by decide)]
        exact hwl
      · rw [if_neg hraw, lookup_setVal_ne _ _ _ _ (by decide)]
        exact hwl
  have hr0email : getVal r0 "email_clean" = getVal w "email_clean" := by
    rw [hr0]
    exact getVal_ensureZipCleanRow (by decide)
  have hp0 : (mergePartner nsEmail "email_clean" (getVal r0 "email_clean")).isSome
      = true := by
    rw [hr0email]
    exact hp
  have hmidnames : ∀ c ∈ nsEmail.cols, c ≠ "email_clean" →
      nsSuffix (ensureZipCleanCols webinar.cols) c ≠ "_email_merge_status" := by
    intro c hc hcne
    rw [build_ns_lookup_ok_cols hE] at hc
    rcases List.mem_cons.mp hc with rfl | hc2
    · exact absurd rfl hcne
    · have h1 : c ∈ matchKeep nsKeepCols := List.mem_of_mem_filter hc2
      have h2 : c ∈ nsKeepCols := by
        unfold matchKeep at h1
        exact List.mem_of_mem_filter h1
      have hct : c ≠ "_email_merge_status" := fun he => hresK (he ▸ h2)
      exact nsSuffix_ne hct (by decide)
  have hstat : getVal r1 "_email_merge_status" = some "both" := by
    rw [hr1]
    have hT : tier1Row (ensureZipCleanCols webinar.cols) nsEmail r0
        = r0 ++ (nsEmail.cols.filter (fun c => c ≠ "email_clean")).map
            (fun c => (nsSuffix (ensureZipCleanCols webinar.cols) c,
              (mergePartner nsEmail "email_clean" (getVal r0 "email_clean")).bind
                (fun p => getVal p c)))
          ++ [("_email_merge_status",
              some (if (mergePartner nsEmail "email_clean"
                  (getVal r0 "email_clean")).isSome
                then "both" else "left_only"))] := rfl
    have hmidN : ((nsEmail.cols.filter (fun c => c ≠ "email_clean")).map
        (fun c => (nsSuffix (ensureZipCleanCols webinar.cols) c,
          (mergePartner nsEmail "email_clean" (getVal r0 "email_clean")).bind
            (fun p => getVal p c)))).lookup "_email_merge_status" = none := by
      apply lookup_eq_none_of_keys
        ((nsEmail.cols.filter (fun c => c ≠ "email_clean")).map
          (nsSuffix (ensureZipCleanCols webinar.cols)))
      · intro p hp2
        rcases List.mem_map.mp hp2 with ⟨c, hc, rfl⟩
        exact List.mem_map.mpr ⟨c, hc, rfl⟩
      · intro hmem
        rcases List.mem_map.mp hmem with ⟨c, hc, he⟩
        exact hmidnames c (List.mem_of_mem_filter hc)
          (by simpa using List.of_mem_filter hc) he
    unfold getVal
    rw [hT, lookup_append, lookup_append, hr0lookup, hmidN, hp0]
    simp [List.lookup]
  have hsrc2 : getVal r2 "ns_match_source" = some "email" := by
    rw [hr2]
    unfold setSourceRow
    rw [getVal_setVal_self, hstat]
    rfl
  have hstat2 : getVal r2 "_email_merge_status" = some "both" := by
    rw [hr2]
    unfold setSourceRow
    rw [getVal_setVal_ne _ _ (by decide)]
    exact hstat
  have hF6 : needNameZip (setVal r2 "_name_zip_key" (nameZipKeyVal r2)) = false := by
    unfold needNameZip
    rw [getVal_setVal_ne _ _ (by decide), hstat2]
    rfl
  have hT2 : ∀ lk : DF, tier2Row (matchFillCols webinar.cols nsKeepCols true)
      (matchCols3 webinar.cols nsEmail) lk r2
      = setVal r2 "_name_zip_key" (nameZipKeyVal r2) := by
    intro lk
    unfold tier2Row
    simp only [if_neg (show ¬(needNameZip (setVal r2 "_name_zip_key"
      (nameZipKeyVal r2)) = true) by simp [hF6])]
  have hF8 : needName (setVal r2 "_name_zip_key" (nameZipKeyVal r2)) = false := by
    unfold needName
    rw [getVal_setVal_ne _ _ (by decide), hstat2]
    rfl
  have hT3 : ∀ lk : DF, tier3Row (matchFillCols webinar.cols nsKeepCols true)
      (matchCols3 webinar.cols nsEmail) lk
      (setVal r2 "_name_zip_key" (nameZipKeyVal r2))
      = setVal r2 "_name_zip_key" (nameZipKeyVal r2) := by
    intro lk
    unfold tier3Row
    simp only [if_neg (show ¬(needName (setVal r2 "_name_zip_key"
      (nameZipKeyVal r2)) = true) by simp [hF8])]
  have hlen : (matchAssemble webinar nsKeepCols true nsEmail nsNameZip'
      nsName').rows.length = webinar.rows.length := by
    show (webinar.rows.map _).length = _
    exact List.length_map _ _
  refine ⟨by rw [hlen]; exact hi, ?_, hF6, ?_⟩
  · have hrow : (matchAssemble webinar nsKeepCols true nsEmail nsNameZip'
        nsName').rows.get ⟨i, by rw [hlen]; exact hi⟩
        = matchRowFull webinar.cols (matchFillCols webinar.cols nsKeepCols true)
          (matchCols3 webinar.cols nsEmail) nsEmail nsNameZip' nsName'
          (matchHasCID webinar.cols nsEmail) w := by
      show (webinar.rows.map _).get _ = _
      simp [List.get_eq_getElem, List.getElem_map, hwdef]
    rw [hrow]
    unfold matchRowFull
    rw [← hr0, ← hr1, ← hr2, hT2 nsNameZip', hT3 nsName',
      getVal_clientFlagRow (by decide) (by decide), getVal_dropPairs (by decide),
      getVal_setVal_ne _ _ (by decide)]
    exact hsrc2
  · intro nsNameZip hZ2
    rw [hT2 nsNameZip]
    exact hF8

/-- When no key collides, the lookup rows are just the deduplicated
unique-key rows. -/
theorem nsOutRows_no_collide {ns : DF} {keyCol counselingCol : String}
    (h : nsCollide ns keyCol = []) :
    nsOutRows ns keyCol counselingCol
      = dedupFirstBy (fun r => getVal r keyCol) (nsSingle ns keyCol) := by
  unfold nsOutRows nsSorted
  rw [h, List.mergeSort_nil, dedupFirstBy_nil, List.append_nil]

theorem build_ns_lookup_eval {ns : DF} {keyCol : String} {keepCols : List String}
    {counselingCol : String}
    (h0 : ¬(keyCol ∉ ns.cols))
    (h1 : ¬((keyCol :: keepCols.filter (fun c => c ≠ keyCol)).filter
      (fun c => !(ns.cols.contains c)) ≠ []))
    (h2 : ¬((!(keyCol :: keepCols.filter (fun c => c ≠ keyCol)).Nodup) = true)) :
    build_ns_lookup ns keyCol keepCols counselingCol
      = .ok ⟨keyCol :: keepCols.filter (fun c => c ≠ keyCol),
        (nsOutRows ns keyCol counselingCol).map
          (projectRow (keyCol :: keepCols.filter (fun c => c ≠ keyCol)))⟩ := by
  unfold build_ns_lookup
  rw [if_neg h0]
  have hbody : (if (keyCol :: keepCols.filter (fun c => c ≠ keyCol)).filter
        (fun c => !(ns.cols.contains c)) ≠ [] then
        Except.error (LookupErr.missingOutCol
          ((keyCol :: keepCols.filter (fun c => c ≠ keyCol)).filter
            (fun c => !(ns.cols.contains c))))
      else if !(keyCol :: keepCols.filter (fun c => c ≠ keyCol)).Nodup then
        Except.error LookupErr.dupLabels
      else Except.ok ⟨keyCol :: keepCols.filter (fun c => c ≠ keyCol),
        (nsOutRows ns keyCol counselingCol).map
          (projectRow (keyCol :: keepCols.filter (fun c => c ≠ keyCol)))⟩)
      = Except.ok (⟨keyCol :: keepCols.filter (fun c => c ≠ keyCol),
        (nsOutRows ns keyCol counselingCol).map
          (projectRow (keyCol :: keepCols.filter (fun c => c ≠ keyCol)))⟩ : DF) := by
    rw [if_neg h1, if_neg h2]
  exact hbody

/-- Running the matcher once the three lookups are known. -/
theorem match_run_of_lookups {webinar ns : DF} {nsKeepCols : List String}
    {counselingCol : String} {protect validate : Bool}
    (hguard : (["email_clean", "full_name_clean"] : List String).filter
      (fun c => !(webinar.cols.contains c)) = [])
    {nsEmail nsNameZip nsName : DF}
    (hE : build_ns_lookup (ensureZipClean ns "Physical Address ZIP Code") "email_clean"
      (matchKeep nsKeepCols) counselingCol = .ok nsEmail)
    (hZ : build_ns_lookup (matchNsForZip ns) "_name_zip_key"
      (matchKeep nsKeepCols) counselingCol = .ok nsNameZip)
    (hN : build_ns_lookup (ensureZipClean ns "Physical Address ZIP Code")
      "full_name_clean" (matchKeep nsKeepCols) counselingCol = .ok nsName) :
    match_webinar_to_neoserra webinar ns nsKeepCols counselingCol protect validate
      = matchValidate webinar
        (matchAssemble webinar nsKeepCols protect nsEmail nsNameZip nsName) validate := by
  unfold match_webinar_to_neoserra
  rw [if_neg (not_not_intro hguard), hE, hZ, hN]

/-- Concrete one-row instances used to exercise the matcher. -/
def wWeb : DF :=
  ⟨["email_clean", "full_name_clean"],
   [[("email_clean", some "a@x.com"), ("full_name_clean", some "Ann")]]⟩

def wNs : DF :=
  ⟨["email_clean", "full_name_clean", "Client ID"],
   [[("email_clean", some "a@x.com"), ("full_name_clean", some "Ann"),
     ("Client ID", some "7")]]⟩

def wNNrow : Row :=
  [("email_clean", some "a@x.com"), ("full_name_clean", some "Ann"),
   ("Client ID", some "7"), ("zip_clean", none)]

def wZrow : Row :=
  [("email_clean", some "a@x.com"), ("full_name_clean", some "Ann"),
   ("Client ID", some "7"), ("zip_clean", none), ("_name_zip_key", some "Ann|")]

def wNsEmail : DF :=
  ⟨["email_clean", "Client ID"],
   [[("email_clean", some "a@x.com"), ("Client ID", some "7")]]⟩

def wNsNameZip : DF :=
  ⟨["_name_zip_key", "Client ID"],
   [[("_name_zip_key", some "Ann|"), ("Client ID", some "7")]]⟩

def wNsName : DF :=
  ⟨["full_name_clean", "Client ID"],
   [[("full_name_clean", some "Ann"), ("Client ID", some "7")]]⟩

def wTierRow : Row :=
  setSourceRow (tier1Row (ensureZipCleanCols wWeb.cols) wNsEmail
    (ensureZipCleanRow wWeb.cols "Zip/Postal Code" (wWeb.rows.get ⟨0, by decide⟩)))

theorem C2_email_tier_priority_witness :
    (match_webinar_to_neoserra wWeb wNs ["Client ID"] "Last Counseling" true true
      = .ok (matchAssemble wWeb ["Client ID"] true wNsEmail wNsNameZip wNsName))
    ∧ ((wWeb.rows.get ⟨0, by decide⟩).all (fun p => wWeb.cols.contains p.1) = true)
    ∧ "_email_merge_status" ∉ wWeb.cols
    ∧ "_email_merge_status" ∉ (["Client ID"] : List String)
    ∧ (build_ns_lookup (ensureZipClean wNs "Physical Address ZIP Code") "email_clean"
        (matchKeep ["Client ID"]) "Last Counseling" = .ok wNsEmail)
    ∧ ((mergePartner wNsEmail "email_clean"
        (getVal (wWeb.rows.get ⟨0, by decide⟩) "email_clean")).isSome = true)
    ∧ ∃ hi' : 0 < (matchAssemble wWeb ["Client ID"] true wNsEmail wNsNameZip
          wNsName).rows.length,
        getVal ((matchAssemble wWeb ["Client ID"] true wNsEmail wNsNameZip
          wNsName).rows.get ⟨0, hi'⟩) "ns_match_source" = some "email"
        ∧ needNameZip (setVal wTierRow "_name_zip_key" (nameZipKeyVal wTierRow)) = false
        ∧ ∀ nsNameZip : DF,
            build_ns_lookup (matchNsForZip wNs) "_name_zip_key" (matchKeep ["Client ID"])
              "Last Counseling" = .ok nsNameZip →
            needName (tier2Row (matchFillCols wWeb.cols ["Client ID"] true)
              (matchCols3 wWeb.cols wNsEmail) nsNameZip wTierRow) = false := by
  have hOutE : nsOutRows (ensureZipClean wNs "Physical Address ZIP Code") "email_clean"
      "Last Counseling" = [wNNrow] := by
    rw [nsOutRows_no_collide (show nsCollide (ensureZipClean wNs
      "Physical Address ZIP Code") "email_clean" = [] from rfl)]
    have hsing : nsSingle (ensureZipClean wNs "Physical Address ZIP Code") "email_clean"
        = [wNNrow] := rfl
    rw [hsing, dedupFirstBy_cons]
    simp
  have hE : build_ns_lookup (ensureZipClean wNs "Physical Address ZIP Code") "email_clean"
      (matchKeep ["Client ID"]) "Last Counseling" = .ok wNsEmail := by
    rw [build_ns_lookup_eval (by decide) (by decide) (by decide), hOutE]
    rfl
  have hOutZ : nsOutRows (matchNsForZip wNs) "_name_zip_key" "Last Counseling"
      = [wZrow] := by
    rw [nsOutRows_no_collide (show nsCollide (matchNsForZip wNs) "_name_zip_key"
      = [] from rfl)]
    have hsing : nsSingle (matchNsForZip wNs) "_name_zip_key" = [wZrow] := rfl
    rw [hsing, dedupFirstBy_cons]
    simp
  have hZ : build_ns_lookup (matchNsForZip wNs) "_name_zip_key" (matchKeep ["Client ID"])
      "Last Counseling" = .ok wNsNameZip := by
    rw [build_ns_lookup_eval (by decide) (by decide) (by decide), hOutZ]
    rfl
  have hOutN : nsOutRows (ensureZipClean wNs "Physical Address ZIP Code")
      "full_name_clean" "Last Counseling" = [wNNrow] := by
    rw [nsOutRows_no_collide (show nsCollide (ensureZipClean wNs
      "Physical Address ZIP Code") "full_name_clean" = [] from rfl)]
    have hsing : nsSingle (ensureZipClean wNs "Physical Address ZIP Code")
        "full_name_clean" = [wNNrow] := rfl
    rw [hsing, dedupFirstBy_cons]
    simp
  have hN : build_ns_lookup (ensureZipClean wNs "Physical Address ZIP Code")
      "full_name_clean" (matchKeep ["Client ID"]) "Last Counseling" = .ok wNsName := by
    rw [build_ns_lookup_eval (by decide) (by decide) (by decide), hOutN]
    rfl
  have hok : match_webinar_to_neoserra wWeb wNs ["Client ID"] "Last Counseling" true true
      = .ok (matchAssemble wWeb ["Client ID"] true wNsEmail wNsNameZip wNsName) := by
    rw [match_run_of_lookups (by decide) hE hZ hN]
    rfl
  refine ⟨hok, by decide, by decide, by decide, hE, by decide, ?_⟩
  exact C2_email_tier_priority wWeb wNs ["Client ID"] "Last Counseling" _ hok 0 (by decide)
    (by decide) (by decide) (by decide) wNsEmail hE (by decide)

/-! ## People/attendance overwrite directives (`scripts/overwriting.py`) -/

def VALID_ACTIONS : List String := ["KEEP", "REMOVE", "ADD"]

/-- `actions = ow[action_col].fillna("").str.upper().str.strip()`. -/
def normAction (r : Row) (actionCol : String) : String :=
  stripStr (upperStr ((getVal r actionCol).getD ""))

/-- The approved-gate filter:
`ow[ow[review_status_col].fillna("").str.lower().eq("approved")]`. -/
def approvedRows (ow : DF) (reviewCol : String) : List Row :=
  ow.rows.filter (fun r => lowerStr ((getVal r reviewCol).getD "") == "approved")

/-- `sorted(set(actions.unique()) - (VALID_ACTIONS | {""}))`. -/
def invalidActions (rows : List Row) (actionCol : String) : List String :=
  (((rows.map (fun r => normAction r actionCol)).filter
    (fun a => !((VALID_ACTIONS ++ [""]).contains a))).dedup).insertionSort
    (fun a b => a ≤ b)

/-- `set(ow.loc[actions == a, email_col].dropna().astype(str))` as a list. -/
def actionEmails (rows : List Row) (emailCol actionCol a : String) : List String :=
  (rows.filter (fun r => normAction r actionCol == a)).filterMap
    (fun r => getVal r emailCol)

def toRemove (rows : List Row) (emailCol actionCol : String) : List String :=
  actionEmails rows emailCol actionCol "REMOVE"

def toKeep (rows : List Row) (emailCol actionCol : String) : List String :=
  actionEmails rows emailCol actionCol "KEEP"

/-- `to_remove - to_keep` — KEEP wins. -/
def removalSet (rows : List Row) (emailCol actionCol : String) : List String :=
  (toRemove rows emailCol actionCol).filter
    (fun e => !((toKeep rows emailCol actionCol).contains e))

/-- `astype(str)` on one cell: a missing value becomes the string `"nan"`. -/
def astypeStrVal (v : Val) : Val := some (v.getD "nan")

/-- The retained master rows (email stringified, removal set filtered out). -/
def keptMasterRows (master : DF) (rows : List Row) : List Row :=
  (master.rows.map (fun r =>
    setVal r "email_clean" (astypeStrVal (getVal r "email_clean")))).filter
    (fun r => !((removalSet rows "email_clean" "action").contains
      ((getVal r "email_clean").getD "")))

/-- The appended ADD rows: aligned to the master schema, email stringified,
then gated on a non-empty email string. -/
def addAlignedRows (master : DF) (rows : List Row) : List Row :=
  ((rows.filter (fun r => normAction r "action" == "ADD")).map
    (fun r => setVal (projectRow master.cols r) "email_clean"
      (astypeStrVal (getVal (projectRow master.cols r) "email_clean")))).filter
    (fun r => 0 < ((getVal r "email_clean").getD "").length)

def peopleFinalRows (master : DF) (rows : List Row) : List Row :=
  keptMasterRows master rows ++ addAlignedRows master rows

inductive OwErr
  | missingMasterEmail
  | missingAction
  | missingReviewStatus
  | invalidActionsFound (vs : List String)
  | missingOverwriteEmail
deriving DecidableEq, Repr

/-- `apply_people_overwrites` (default column names, `require_approved=True`).
The `ValueError`s and the implicit `KeyError` of `ow.loc[..., email_col]`
become `Except` errors. -/
def apply_people_overwrites (master ow : DF) : Except OwErr DF :=
  if "email_clean" ∉ master.cols then .error .missingMasterEmail
  else if "action" ∉ ow.cols then .error .missingAction
  else if "review_status" ∉ ow.cols then .error .missingReviewStatus
  else if invalidActions (approvedRows ow "review_status") "action" ≠ [] then
    .error (.invalidActionsFound (invalidActions (approvedRows ow "review_status") "action"))
  else if "email_clean" ∉ ow.cols then .error .missingOverwriteEmail
  else .ok ⟨master.cols, peopleFinalRows master (approvedRows ow "review_status")⟩

def attendanceFinalRows (att : DF) (rows : List Row) : List Row :=
  (att.rows.map (fun r =>
    setVal r "email_clean" (astypeStrVal (getVal r "email_clean")))).filter
    (fun r => !((removalSet rows "email_clean" "action").contains
      ((getVal r "email_clean").getD "")))

/-- `apply_attendance_removals_from_people_overwrite` (default column names,
`require_approved=True`).  No invalid-action check is performed here. -/
def apply_attendance_removals_from_people_overwrite (att ow : DF) : Except OwErr DF :=
  if "email_clean" ∉ att.cols then .error .missingMasterEmail
  else if "action" ∉ ow.cols then .error .missingAction
  else if "review_status" ∉ ow.cols then .error .missingReviewStatus
  else if "email_clean" ∉ ow.cols then .error .missingOverwriteEmail
  else .ok ⟨att.cols, attendanceFinalRows att (approvedRows ow "review_status")⟩

theorem mem_actionEmails {rows : List Row} {emailCol actionCol a v : String} :
    v ∈ actionEmails rows emailCol actionCol a
      ↔ ∃ r ∈ rows, normAction r actionCol = a ∧ getVal r emailCol = some v := by
  unfold actionEmails
  rw [List.mem_filterMap]
  constructor
  · rintro ⟨r, hr, hv⟩
    have h1 := List.mem_of_mem_filter hr
    have h2 : normAction r actionCol = a := by simpa using List.of_mem_filter hr
    exact ⟨r, h1, h2, hv⟩
  · rintro ⟨r, hr, ha, hv⟩
    exact ⟨r, List.mem_filter.mpr ⟨hr, by simp [ha]⟩, hv⟩

theorem mem_removalSet {rows : List Row} {emailCol actionCol v : String} :
    v ∈ removalSet rows emailCol actionCol
      ↔ (∃ r ∈ rows, normAction r actionCol = "REMOVE" ∧ getVal r emailCol = some v)
        ∧ ¬∃ r ∈ rows, normAction r actionCol = "KEEP" ∧ getVal r emailCol = some v := by
  unfold removalSet toRemove toKeep
  rw [List.mem_filter]
  constructor
  · rintro ⟨h1, h2⟩
    refine ⟨mem_actionEmails.mp h1, ?_⟩
    intro hex
    have hmem := mem_actionEmails.mpr hex
    simp only [Bool.not_eq_true'] at h2
    have : v ∉ toKeep rows emailCol actionCol := by simpa using h2
    exact this hmem
  · rintro ⟨h1, h2⟩
    refine ⟨mem_actionEmails.mpr h1, ?_⟩
    have : v ∉ toKeep rows emailCol actionCol := fun hmem => h2 (mem_actionEmails.mp hmem)
    simpa using this

theorem mem_invalidActions {rows : List Row} {actionCol : String} {v : String} :
    v ∈ invalidActions rows actionCol
      ↔ (v ∉ VALID_ACTIONS ∧ v ≠ ""
          ∧ ∃ r ∈ rows, normAction r actionCol = v) := by
  unfold invalidActions
  rw [(List.perm_insertionSort _ _).mem_iff, List.mem_dedup, List.mem_filter,
    List.mem_map]
  constructor
  · rintro ⟨⟨r, hr, rfl⟩, hval⟩
    simp only [Bool.not_eq_true'] at hval
    have hnot : normAction r actionCol ∉ VALID_ACTIONS ++ [""] := by simpa using hval
    rw [List.mem_append] at hnot
    push_neg at hnot
    refine ⟨hnot.1, by simpa using hnot.2, r, hr, rfl⟩
  · rintro ⟨hnv, hne, r, hr, rfl⟩
    refine ⟨⟨r, hr, rfl⟩, ?_⟩
    have : normAction r actionCol ∉ VALID_ACTIONS ++ [""] := by
      rw [List.mem_append]
      push_neg
      exact ⟨hnv, by simpa using hne⟩
    simpa using this

theorem apply_people_ok_shape {master ow : DF} {out : DF}
    (h : apply_people_overwrites master ow = .ok out) :
    out = ⟨master.cols, peopleFinalRows master (approvedRows ow "review_status")⟩ := by
  unfold apply_people_overwrites at h
  split at h
  · exact absurd h (by simp)
  split at h
  · exact absurd h (by simp)
  split at h
  · exact absurd h (by simp)
  split at h
  · exact absurd h (by simp)
  split at h
  · exact absurd h (by simp)
  exact (Except.ok.inj h).symm

theorem apply_attendance_ok_shape {att ow : DF} {out : DF}
    (h : apply_attendance_removals_from_people_overwrite att ow = .ok out) :
    out = ⟨att.cols, attendanceFinalRows att (approvedRows ow "review_status")⟩ := by
  unfold apply_attendance_removals_from_people_overwrite at h
  split at h
  · exact absurd h (by simp)
  split at h
  · exact absurd h (by simp)
  split at h
  · exact absurd h (by simp)
  split at h
  · exact absurd h (by simp)
  exact (Except.ok.inj h).symm

/-- C7: KEEP beats REMOVE — an email carrying both an approved KEEP and an
approved REMOVE directive stays out of the removal set, its rows are
retained in people-final and attendance-final, and the removal set is
exactly the approved REMOVE emails minus the approved KEEP emails. -/
theorem C7_keep_beats_remove (master att ow : DF) (e : String)
    (hkeep : ∃ r ∈ approvedRows ow "review_status",
      normAction r "action" = "KEEP" ∧ getVal r "email_clean" = some e)
    (hrem : ∃ r ∈ approvedRows ow "review_status",
      normAction r "action" = "REMOVE" ∧ getVal r "email_clean" = some e)
    (outP outA : DF)
    (hP : apply_people_overwrites master ow = .ok outP)
    (hA : apply_attendance_removals_from_people_overwrite att ow = .ok outA) :
    e ∉ removalSet (approvedRows ow "review_status") "email_clean" "action"
    ∧ (∀ r ∈ master.rows, (getVal r "email_clean").getD "nan" = e →
        setVal r "email_clean" (astypeStrVal (getVal r "email_clean")) ∈ outP.rows)
    ∧ (∀ r ∈ att.rows, (getVal r "email_clean").getD "nan" = e →
        setVal r "email_clean" (astypeStrVal (getVal r "email_clean")) ∈ outA.rows)
    ∧ (∀ v : String,
        v ∈ removalSet (approvedRows ow "review_status") "email_clean" "action"
        ↔ ((∃ r ∈ approvedRows ow "review_status",
              normAction r "action" = "REMOVE" ∧ getVal r "email_clean" = some v)
            ∧ ¬∃ r ∈ approvedRows ow "review_status",
              normAction r "action" = "KEEP" ∧ getVal r "email_clean" = some v)) := by
  obtain rfl := apply_people_ok_shape hP
  obtain rfl := apply_attendance_ok_shape hA
  have hnot : e ∉ removalSet (approvedRows ow "review_status") "email_clean" "action" := by
    intro hmem
    exact (mem_removalSet.mp hmem).2 hkeep
  have hcont : (removalSet (approvedRows ow "review_status") "email_clean"
      "action").contains e = false := by simpa using hnot
  refine ⟨hnot, ?_, ?_, fun v => mem_removalSet⟩
  · intro r hr he
    show _ ∈ peopleFinalRows master (approvedRows ow "review_status")
    unfold peopleFinalRows keptMasterRows
    apply List.mem_append_left
    apply List.mem_filter.mpr
    refine ⟨List.mem_map.mpr ⟨r, hr, rfl⟩, ?_⟩
    rw [getVal_setVal_self]
    have hval : ((astypeStrVal (getVal r "email_clean")).getD "") = e := by
      unfold astypeStrVal
      simpa using he
    rw [hval, hcont]
    rfl
  · intro r hr he
    show _ ∈ attendanceFinalRows att (approvedRows ow "review_status")
    unfold attendanceFinalRows
    apply List.mem_filter.mpr
    refine ⟨List.mem_map.mpr ⟨r, hr, rfl⟩, ?_⟩
    rw [getVal_setVal_self]
    have hval : ((astypeStrVal (getVal r "email_clean")).getD "") = e := by
      unfold astypeStrVal
      simpa using he
    rw [hval, hcont]
    rfl

/-- Concrete overwrite table carrying both an approved KEEP and an approved
REMOVE for the same email, used to instantiate C7. -/
def wOw7 : DF :=
  ⟨["action", "review_status", "email_clean"],
   [[("action", some "KEEP"), ("review_status", some "approved"),
     ("email_clean", some "a@x.com")],
    [("action", some "REMOVE"), ("review_status", some "approved"),
     ("email_clean", some "a@x.com")]]⟩

def wMaster7 : DF :=
  ⟨["email_clean", "phone"],
   [[("email_clean", some "a@x.com"), ("phone", some "1")]]⟩

def wAtt7 : DF :=
  ⟨["email_clean", "webinar_id"],
   [[("email_clean", some "a@x.com"), ("webinar_id", some "W1")]]⟩

theorem C7_keep_beats_remove_witness :
    (∃ r ∈ approvedRows wOw7 "review_status",
      normAction r "action" = "KEEP" ∧ getVal r "email_clean" = some "a@x.com")
    ∧ (∃ r ∈ approvedRows wOw7 "review_status",
      normAction r "action" = "REMOVE" ∧ getVal r "email_clean" = some "a@x.com")
    ∧ (apply_people_overwrites wMaster7 wOw7
        = .ok ⟨wMaster7.cols, peopleFinalRows wMaster7 (approvedRows wOw7 "review_status")⟩)
    ∧ (apply_attendance_removals_from_people_overwrite wAtt7 wOw7
        = .ok ⟨wAtt7.cols, attendanceFinalRows wAtt7 (approvedRows wOw7 "review_status")⟩)
    ∧ ("a@x.com" ∉ removalSet (approvedRows wOw7 "review_status") "email_clean" "action"
      ∧ (∀ r ∈ wMaster7.rows, (getVal r "email_clean").getD "nan" = "a@x.com" →
          setVal r "email_clean" (astypeStrVal (getVal r "email_clean"))
            ∈ (⟨wMaster7.cols, peopleFinalRows wMaster7
                (approvedRows wOw7 "review_status")⟩ : DF).rows)
      ∧ (∀ r ∈ wAtt7.rows, (getVal r "email_clean").getD "nan" = "a@x.com" →
          setVal r "email_clean" (astypeStrVal (getVal r "email_clean"))
            ∈ (⟨wAtt7.cols, attendanceFinalRows wAtt7
                (approvedRows wOw7 "review_status")⟩ : DF).rows)
      ∧ (∀ v : String,
          v ∈ removalSet (approvedRows wOw7 "review_status") "email_clean" "action"
          ↔ ((∃ r ∈ approvedRows wOw7 "review_status",
                normAction r "action" = "REMOVE" ∧ getVal r "email_clean" = some v)
              ∧ ¬∃ r ∈ approvedRows wOw7 "review_status",
                normAction r "action" = "KEEP" ∧ getVal r "email_clean" = some v))) :=
  ⟨by decide, by decide, rfl, rfl,
    C7_keep_beats_remove wMaster7 wAtt7 wOw7 "a@x.com" (by decide) (by decide)
      _ _ rfl rfl⟩

/-- A master table and an overwrite table whose single approved ADD row has
no `email_clean` value at all. -/
def c8Master : DF :=
  ⟨["email_clean", "phone"],
   [[("email_clean", some "a@x.com"), ("phone", some "1")]]⟩

def c8Ow : DF :=
  ⟨["action", "review_status", "email_clean", "phone"],
   [[("action", some "ADD"), ("review_status", some "approved"),
     ("phone", some "9")]]⟩

/-- C8: the claimed gate "ADD rows require a non-empty email" does not hold
in the code: an approved ADD row with a missing email is stringified by
`astype(str)` to the literal `"nan"`, passes the `str.len() > 0` filter, and
is appended to people-final with email `"nan"` instead of being dropped. -/
theorem C8_add_requires_email :
    ∃ out : DF, apply_people_overwrites c8Master c8Ow = .ok out
      ∧ (∃ r ∈ approvedRows c8Ow "review_status",
          normAction r "action" = "ADD" ∧ getVal r "email_clean" = none)
      ∧ out.rows.length = c8Master.rows.length + 1
      ∧ ∃ r ∈ out.rows, getVal r "email_clean" = some "nan" :=
  ⟨⟨c8Master.cols, peopleFinalRows c8Master (approvedRows c8Ow "review_status")⟩,
    rfl, by decide, by decide, by decide⟩

/-- An overwrite table whose single approved directive has a blank action
(whitespace only, normalising to `""`). -/
def c9Ow : DF :=
  ⟨["action", "review_status", "email_clean"],
   [[("action", some "  "), ("review_status", some "Approved"),
     ("email_clean", some "b@x.com")]]⟩

def c9Master : DF := ⟨["email_clean"], [[("email_clean", some "c@x.com")]]⟩

/-- C9 counterexample: a blank action is outside `{KEEP, REMOVE, ADD}`, yet
the apply phase accepts it — the code subtracts `VALID_ACTIONS | {""}`, so
only non-blank invalid values are fatal. -/
theorem C9_counterexample :
    (∃ r ∈ approvedRows c9Ow "review_status",
      normAction r "action" ∉ VALID_ACTIONS)
    ∧ ∃ out : DF, apply_people_overwrites c9Master c9Ow = .ok out :=
  ⟨by decide,
    ⟨⟨c9Master.cols, peopleFinalRows c9Master (approvedRows c9Ow "review_status")⟩, rfl⟩⟩

/-- C9 (amended): the apply phase fails with the invalid-actions error
exactly when some approved directive's normalised action is non-blank and
outside `{KEEP, REMOVE, ADD}`; the reported list is sorted and contains
exactly the offending values (blank actions are tolerated). -/
theorem C9_invalid_action_fatal (master ow : DF)
    (h1 : "email_clean" ∈ master.cols) (h2 : "action" ∈ ow.cols)
    (h3 : "review_status" ∈ ow.cols) :
    ((∃ vs, apply_people_overwrites master ow = .error (.invalidActionsFound vs))
      ↔ ∃ r ∈ approvedRows ow "review_status",
          normAction r "action" ∉ VALID_ACTIONS ∧ normAction r "action" ≠ "")
    ∧ ∀ vs, apply_people_overwrites master ow = .error (.invalidActionsFound vs) →
        vs.Sorted (fun a b => a ≤ b)
        ∧ ∀ v, v ∈ vs ↔ (v ∉ VALID_ACTIONS ∧ v ≠ ""
            ∧ ∃ r ∈ approvedRows ow "review_status", normAction r "action" = v) := by
  have happly : apply_people_overwrites master ow
      = (if invalidActions (approvedRows ow "review_status") "action" ≠ [] then
          .error (.invalidActionsFound
            (invalidActions (approvedRows ow "review_status") "action"))
        else if "email_clean" ∉ ow.cols then .error .missingOverwriteEmail
        else .ok ⟨master.cols,
          peopleFinalRows master (approvedRows ow "review_status")⟩) := by
    unfold apply_people_overwrites
    rw [if_neg (not_not_intro h1), if_neg (not_not_intro h2), if_neg (not_not_intro h3)]
  by_cases hinv : invalidActions (approvedRows ow "review_status") "action" = []
  · rw [happly, if_neg (not_not_intro hinv)]
    constructor
    · constructor
      · rintro ⟨vs, hvs⟩
        split at hvs
        · exact absurd hvs (by simp)
        · exact absurd hvs (by simp)
      · rintro ⟨r, hr, hnv, hne⟩
        exfalso
        have : normAction r "action" ∈ invalidActions (approvedRows ow "review_status")
            "action" := mem_invalidActions.mpr ⟨hnv, hne, r, hr, rfl⟩
        rw [hinv] at this
        simp at this
    · intro vs hvs
      split at hvs
      · exact absurd hvs (by simp)
      · exact absurd hvs (by simp)
  · rw [happly, if_pos hinv]
    constructor
    · constructor
      · intro _
        rcases List.exists_mem_of_ne_nil _ hinv with ⟨v, hv⟩
        rcases mem_invalidActions.mp hv with ⟨hnv, hne, r, hr, hval⟩
        exact ⟨r, hr, hval ▸ hnv, hval ▸ hne⟩
      · intro _
        exact ⟨invalidActions (approvedRows ow "review_status") "action", rfl⟩
    · intro vs hvs
      have hinj := OwErr.invalidActionsFound.inj (Except.error.inj hvs)
      subst hinj
      constructor
      · unfold invalidActions
        exact List.sorted_insertionSort _ _
      · intro v
        exact mem_invalidActions

/-- An overwrite table with an approved non-blank invalid action. -/
def c9WOw : DF :=
  ⟨["action", "review_status", "email_clean"],
   [[("action", some "purge"), ("review_status", some "approved"),
     ("email_clean", some "d@x.com")]]⟩

theorem C9_invalid_action_fatal_witness :
    ("email_clean" ∈ c9Master.cols) ∧ ("action" ∈ c9WOw.cols)
    ∧ ("review_status" ∈ c9WOw.cols)
    ∧ (((∃ vs, apply_people_overwrites c9Master c9WOw
          = .error (.invalidActionsFound vs))
        ↔ ∃ r ∈ approvedRows c9WOw "review_status",
            normAction r "action" ∉ VALID_ACTIONS ∧ normAction r "action" ≠ "")
      ∧ ∀ vs, apply_people_overwrites c9Master c9WOw
          = .error (.invalidActionsFound vs) →
          vs.Sorted (fun a b => a ≤ b)
          ∧ ∀ v, v ∈ vs ↔ (v ∉ VALID_ACTIONS ∧ v ≠ ""
              ∧ ∃ r ∈ approvedRows c9WOw "review_status",
                  normAction r "action" = v)) :=
  ⟨by decide, by decide, by decide,
    C9_invalid_action_fatal c9Master c9WOw (by decide) (by decide) (by decide)⟩
